import Mathlib

/-!
# Verification of the Sortme candidate pipeline

Shallow embedding of the Sortme backend (merge stage, reranker brand
diversity, vision validator heuristic fallback, knowledge planner gender
enforcement, and the orchestrator graph) together with proofs of the
spec-level properties about them.

Python dictionaries are embedded as Lean structures with `Option` fields
(`none` models an absent key or a `None` value); Python string operations
(`in`, `.lower()`, `.strip()`, `str()`) are embedded as executable helpers
on `String`; numeric scores are embedded as `ℚ` (the pipeline only
compares them, so the ordered field ℚ is a faithful stand-in for the
totally ordered non-NaN floats the code manipulates).
-/

namespace Sortme

/-! ## Python string helpers -/

/-- Predicate `startsWithL needle hay` : does `hay` start with `needle`? -/
def startsWithL : List Char → List Char → Bool
  | [], _ => true
  | _ :: _, [] => false
  | a :: as, b :: bs => a = b && startsWithL as bs

/-- Occurrence check used by `pyIn`: does `needle` occur in `hay`? -/
def hasSub : List Char → List Char → Bool
  | [], needle => needle.isEmpty
  | hay@(_ :: t), needle => startsWithL needle hay || hasSub t needle

/-- Python `needle in hay` for strings. -/
def pyIn (needle hay : String) : Bool := hasSub hay.data needle.data

/-- Python `s.lower()`. -/
def pyLower (s : String) : String := String.mk (s.data.map Char.toLower)

/-- Python `not s.strip()` : the string is empty or whitespace only. -/
def pyBlank (s : String) : Bool := s.data.all Char.isWhitespace

/-- Python `str(x)` on an optional string (`str(None) = "None"`). -/
def pyStr : Option String → String
  | none => "None"
  | some s => s

/-- Python truthiness of an optional string (`None` and `""` are falsy). -/
def optStrTruthy : Option String → Bool
  | none => false
  | some s => s ≠ ""

/-! ## Merge stage (`src/backend/langgraph/nodes/merge_node.py`)

`MergeNode.__call__` concatenates `state.qdrant_valid` and
`state.web_valid`, sorts by `item.get("validator_score", 0)` descending
(Python's stable sort), deduplicates by `item.get("id")` keeping the first
occurrence, and truncates to 8. -/

/-- A merged-stage item: `id` and `validatorScore` are the dict keys the
merge node reads (`none` = absent key); `payload` stands for all remaining
dict fields, so that distinct records with equal ids stay distinguishable. -/
structure MItem where
  id : Option String
  validatorScore : Option ℚ
  payload : String
deriving DecidableEq

/-- Embeds `item.get("validator_score", 0)`, the sort key used by the merge node. -/
def scoreOf (x : MItem) : ℚ := x.validatorScore.getD 0

/-- Stable descending insertion: `x` is placed before the first element whose
score is `≤ scoreOf x`.  Folding this over the list right-to-left reproduces
Python's stable `list.sort(key=..., reverse=True)` ordering. -/
def insertD (x : MItem) : List MItem → List MItem
  | [] => [x]
  | y :: ys => if scoreOf y ≤ scoreOf x then x :: y :: ys else y :: insertD x ys

/-- Python `merged.sort(key=lambda item: item.get("validator_score", 0), reverse=True)`. -/
def sortDesc (l : List MItem) : List MItem := l.foldr insertD []

/-- First-seen-wins deduplication by `item.get("id")`, with the `seen_ids`
set carried explicitly (mirrors the loop in `MergeNode.__call__`). -/
def dedupK (seen : List (Option String)) : List MItem → List MItem
  | [] => []
  | x :: t => if x.id ∈ seen then dedupK seen t else x :: dedupK (x.id :: seen) t

/-- Embeds `MergeNode.__call__`: sort the concatenation by validator score
descending, dedup by id (first seen wins), truncate to 8. -/
def mergeNode (qdrantValid webValid : List MItem) : List MItem :=
  (dedupK [] (sortDesc (qdrantValid ++ webValid))).take 8

/-! ### Merge lemmas -/

theorem insertD_perm (x : MItem) (l : List MItem) : List.Perm (insertD x l) (x :: l) := by
  induction l with
  | nil => simp [insertD]
  | cons y ys ih =>
    rw [insertD]
    split
    · exact List.Perm.refl _
    · exact (List.Perm.cons y ih).trans (List.Perm.swap x y ys)

theorem sortDesc_perm (l : List MItem) : List.Perm (sortDesc l) l := by
  induction l with
  | nil => simp [sortDesc]
  | cons x xs ih =>
    have h1 : List.Perm (insertD x (sortDesc xs)) (x :: sortDesc xs) :=
      insertD_perm x (sortDesc xs)
    exact h1.trans (List.Perm.cons x ih)

theorem insertD_pairwise (x : MItem) (l : List MItem)
    (h : l.Pairwise (fun a b => scoreOf b ≤ scoreOf a)) :
    (insertD x l).Pairwise (fun a b => scoreOf b ≤ scoreOf a) := by
  induction l with
  | nil => simp [insertD]
  | cons y ys ih =>
    rw [List.pairwise_cons] at h
    obtain ⟨hy, hys⟩ := h
    rw [insertD]
    split
    · rename_i hle
      rw [List.pairwise_cons]
      refine ⟨?_, List.pairwise_cons.mpr ⟨hy, hys⟩⟩
      intro b hb
      rcases List.mem_cons.mp hb with rfl | hb'
      · exact hle
      · exact le_trans (hy _ hb') hle
    · rename_i hgt
      push_neg at hgt
      rw [List.pairwise_cons]
      refine ⟨?_, ih hys⟩
      intro b hb
      rcases List.mem_cons.mp ((insertD_perm x ys).mem_iff.mp hb) with hbe | hb'
      · rw [hbe]; exact le_of_lt hgt
      · exact hy _ hb'

theorem sortDesc_pairwise (l : List MItem) :
    (sortDesc l).Pairwise (fun a b => scoreOf b ≤ scoreOf a) := by
  induction l with
  | nil => simp [sortDesc]
  | cons x xs ih => exact insertD_pairwise x (sortDesc xs) ih

theorem dedupK_sublist (seen : List (Option String)) (l : List MItem) :
    (dedupK seen l).Sublist l := by
  induction l generalizing seen with
  | nil => simp [dedupK]
  | cons x t ih =>
    rw [dedupK]
    split
    · exact (ih seen).cons x
    · exact (ih (x.id :: seen)).cons₂ x

theorem mem_dedupK_id_not_seen {seen : List (Option String)} {l : List MItem} {x : MItem}
    (h : x ∈ dedupK seen l) : x.id ∉ seen := by
  induction l generalizing seen with
  | nil => simp [dedupK] at h
  | cons y t ih =>
    rw [dedupK] at h
    by_cases hc : y.id ∈ seen
    · rw [if_pos hc] at h
      exact ih h
    · rw [if_neg hc] at h
      rcases List.mem_cons.mp h with rfl | h'
      · exact hc
      · intro hxs
        exact ih h' (List.mem_cons_of_mem _ hxs)

theorem dedupK_nodup_ids (seen : List (Option String)) (l : List MItem) :
    ((dedupK seen l).map MItem.id).Nodup := by
  induction l generalizing seen with
  | nil => simp [dedupK]
  | cons x t ih =>
    rw [dedupK]
    by_cases hc : x.id ∈ seen
    · rw [if_pos hc]; exact ih seen
    · rw [if_neg hc, List.map_cons]
      refine List.Nodup.cons ?_ (ih (x.id :: seen))
      intro hmem
      rcases List.mem_map.mp hmem with ⟨y, hy, hid⟩
      exact mem_dedupK_id_not_seen hy (by rw [hid]; exact List.mem_cons_self _ _)

/-- In a score-descending list, every record kept by first-seen-wins dedup
has a score at least as large as any record in the list with the same id. -/
theorem dedupK_max_score {l : List MItem}
    (hs : l.Pairwise (fun a b => scoreOf b ≤ scoreOf a))
    {seen : List (Option String)} {x : MItem} (hx : x ∈ dedupK seen l)
    {y : MItem} (hy : y ∈ l) (hid : y.id = x.id) : scoreOf y ≤ scoreOf x := by
  induction l generalizing seen with
  | nil => simp at hy
  | cons z t ih =>
    rw [List.pairwise_cons] at hs
    obtain ⟨hz, ht⟩ := hs
    rw [dedupK] at hx
    by_cases hc : z.id ∈ seen
    · rw [if_pos hc] at hx
      rcases List.mem_cons.mp hy with rfl | hy'
      · exact absurd (hid ▸ hc) (mem_dedupK_id_not_seen hx)
      · exact ih ht hx hy'
    · rw [if_neg hc] at hx
      rcases List.mem_cons.mp hx with rfl | hx'
      · rcases List.mem_cons.mp hy with rfl | hy'
        · exact le_refl _
        · exact hz _ hy'
      · rcases List.mem_cons.mp hy with rfl | hy'
        · have hns := mem_dedupK_id_not_seen hx'
          rw [← hid] at hns
          exact absurd (List.mem_cons_self _ _) hns
        · exact ih ht hx' hy'

theorem mem_of_mem_dedupK {seen : List (Option String)} {l : List MItem} {x : MItem}
    (h : x ∈ dedupK seen l) : x ∈ l := (dedupK_sublist seen l).mem h

/-- Id-membership in the deduped list: an id survives iff it occurs in the
input and was not already seen. -/
theorem mem_map_id_dedupK {seen : List (Option String)} {l : List MItem} {i : Option String} :
    i ∈ (dedupK seen l).map MItem.id ↔ i ∈ l.map MItem.id ∧ i ∉ seen := by
  induction l generalizing seen with
  | nil => simp [dedupK]
  | cons x t ih =>
    rw [dedupK]
    by_cases hc : x.id ∈ seen
    · rw [if_pos hc, ih, List.map_cons]
      simp only [List.mem_cons]
      constructor
      · rintro ⟨h1, h2⟩; exact ⟨Or.inr h1, h2⟩
      · rintro ⟨h1 | h1, h2⟩
        · exact absurd (h1 ▸ hc) h2
        · exact ⟨h1, h2⟩
    · rw [if_neg hc, List.map_cons, List.map_cons]
      simp only [List.mem_cons, ih, List.mem_cons, not_or]
      constructor
      · rintro (rfl | ⟨h1, h2⟩)
        · exact ⟨Or.inl rfl, hc⟩
        · exact ⟨Or.inr h1, h2.2⟩
      · rintro ⟨h1, h2⟩
        by_cases hix : i = x.id
        · exact Or.inl hix
        · rcases h1 with h1 | h1
          · exact absurd h1 hix
          · exact Or.inr ⟨h1, ⟨hix, h2⟩⟩

/-! ### Claims C1 and C6 -/

/-- Catalog-side record for the C1 counterexample (validator score 1). -/
def catRec : MItem := { id := some "p1", validatorScore := some 1, payload := "catalog" }

/-- Web-side record with the same identifier but a higher validator score. -/
def webRec : MItem := { id := some "p1", validatorScore := some 2, payload := "web" }

/-- C1 counterexample: the merge node sorts by validator score *before*
deduplicating, so for an identifier present in both sources the record kept
is the higher-scoring one — here the web record — not the catalog record
supplied first.  This refutes the claim that for an identifier present in
both inputs the catalog record is always the one preserved. -/
theorem c1_merge_counterexample :
    catRec.id = webRec.id ∧ catRec ≠ webRec ∧
      mergeNode [catRec] [webRec] = [webRec] := ⟨rfl, by decide, by decide⟩

/-- Shared helper: no duplicate identifiers in any merge output. -/
theorem mergeNode_nodup_ids (a b : List MItem) :
    ((mergeNode a b).map MItem.id).Nodup :=
  (dedupK_nodup_ids [] (sortDesc (a ++ b))).sublist ((List.take_sublist _ _).map _)

/-- Shared helper: every merge output record is an input record of maximal
validator score among the input records sharing its identifier. -/
theorem mergeNode_max_score (a b : List MItem) :
    ∀ x ∈ mergeNode a b, x ∈ a ++ b ∧
      ∀ y ∈ a ++ b, y.id = x.id → scoreOf y ≤ scoreOf x := by
  intro x hx
  have hxd : x ∈ dedupK [] (sortDesc (a ++ b)) := (List.take_sublist _ _).mem hx
  have hxin : x ∈ a ++ b := (sortDesc_perm (a ++ b)).mem_iff.mp (mem_of_mem_dedupK hxd)
  refine ⟨hxin, fun y hy hid => ?_⟩
  have hy' : y ∈ sortDesc (a ++ b) := (sortDesc_perm (a ++ b)).mem_iff.mpr hy
  exact dedupK_max_score (sortDesc_pairwise (a ++ b)) hxd hy' hid

/-- C1 (amended): the merge stage output is deduplicated by identifier,
sorted in descending order of validator score, truncated to at most 8
items, and every preserved record is an input record whose validator score
is maximal among all input records sharing its identifier — so for an
identifier present in both sources the record preserved is a
maximal-scoring one, not unconditionally the catalog one. -/
theorem c1_merge_dedup_sort_bound (a b : List MItem) :
    ((mergeNode a b).map MItem.id).Nodup ∧
    (mergeNode a b).Pairwise (fun x y => scoreOf y ≤ scoreOf x) ∧
    (mergeNode a b).length ≤ 8 ∧
    ∀ x ∈ mergeNode a b, x ∈ a ++ b ∧
      ∀ y ∈ a ++ b, y.id = x.id → scoreOf y ≤ scoreOf x := by
  refine ⟨mergeNode_nodup_ids a b, ?_, ?_, mergeNode_max_score a b⟩
  · exact ((sortDesc_pairwise (a ++ b)).sublist (dedupK_sublist [] _)).sublist
      (List.take_sublist _ _)
  · exact List.length_take_le 8 _

/-- C1 witness: the amended properties instantiated at a concrete merge. -/
theorem c1_merge_dedup_sort_bound_witness :
    webRec ∈ mergeNode [catRec] [webRec] ∧
      catRec ∈ [catRec] ++ [webRec] ∧
      scoreOf catRec ≤ scoreOf webRec :=
  ⟨by decide, by decide,
    ((c1_merge_dedup_sort_bound [catRec] [webRec]).2.2.2 webRec (by decide)).2
      catRec (by decide) rfl⟩

/-- Shared helper: id-set stability of merging a list with itself. -/
theorem dedup_sort_self_id_set (v : List MItem) :
    ∀ i, i ∈ (dedupK [] (sortDesc (v ++ v))).map MItem.id ↔
      i ∈ (dedupK [] (sortDesc (v ++ []))).map MItem.id := by
  intro i
  rw [mem_map_id_dedupK, mem_map_id_dedupK]
  constructor
  · rintro ⟨h1, h2⟩
    refine ⟨?_, h2⟩
    have h3 := ((sortDesc_perm (v ++ v)).map MItem.id).mem_iff.mp h1
    have hv : i ∈ v.map MItem.id := by simpa using h3
    exact ((sortDesc_perm (v ++ [])).map MItem.id).mem_iff.mpr (by simpa using hv)
  · rintro ⟨h1, h2⟩
    refine ⟨?_, h2⟩
    have h3 := ((sortDesc_perm (v ++ [])).map MItem.id).mem_iff.mp h1
    have hv : i ∈ v.map MItem.id := by simpa using h3
    exact ((sortDesc_perm (v ++ v)).map MItem.id).mem_iff.mpr (by simpa using hv)

/-- C6: merging a validated list with itself as both input streams yields
no duplicate identifiers in the output, and (before the final truncation)
exactly the same set of identifiers as merging the list once against an
empty second stream. -/
theorem c6_merge_self_idempotent (v : List MItem) :
    ((mergeNode v v).map MItem.id).Nodup ∧
    ∀ i, i ∈ (dedupK [] (sortDesc (v ++ v))).map MItem.id ↔
      i ∈ (dedupK [] (sortDesc (v ++ []))).map MItem.id :=
  ⟨mergeNode_nodup_ids v v, dedup_sort_self_id_set v⟩

/-! ## Reranker brand diversity (`src/backend/retrievers/reranker.py`)

`Reranker.rerank` asks the ranking oracle for an index permutation (falling
back to `range(min(top_k, len(candidates)))` on any exception), gathers the
candidates in that order, then runs `_apply_brand_diversity` with
`max_per_brand=2, limit=top_k` and truncates to `top_k`.

`_apply_brand_diversity` makes three passes: a cap-respecting greedy pass
(with an early return once `target` items are picked), a second pass over
the deferred items re-checking the cap, and a final fill pass over the
original order ignoring the cap, skipping already-picked ids. -/

/-- A reranker item: `id`, `brand`, and an opaque `payload` for the rest of
the candidate dict. -/
structure RItem where
  id : Option String
  brand : Option String
  payload : String
deriving DecidableEq

/-- Embeds `(item.get("brand") or "unknown").lower()`. -/
def brandKey (x : RItem) : String :=
  match x.brand with
  | none => pyLower "unknown"
  | some b => if b = "" then pyLower "unknown" else pyLower b

/-- Embeds `str(item.get("id"))`. -/
def idStr (x : RItem) : String := pyStr x.id

/-- Embeds `brand_counts.get(brand, 0)` on the association-list counter. -/
def cGet (m : List (String × Nat)) (k : String) : Nat :=
  match m.find? (fun p => p.1 = k) with
  | none => 0
  | some p => p.2

/-- Embeds `brand_counts[brand] = brand_counts.get(brand, 0) + 1`. -/
def cInc (m : List (String × Nat)) (k : String) : List (String × Nat) :=
  match m with
  | [] => [(k, 1)]
  | (k', v) :: t => if k' = k then (k', v + 1) :: t else (k', v) :: cInc t k

/-- Number of items of brand key `b` in a list. -/
def countB (l : List RItem) (b : String) : Nat :=
  (l.filter (fun x => brandKey x = b)).length

/-- Python `target = limit or len(candidates)` (`None` and `0` are falsy). -/
def pyOrNat : Option Nat → Nat → Nat
  | none, d => d
  | some 0, d => d
  | some n, _ => n

/-- First pass of `_apply_brand_diversity`: greedy cap-respecting selection
with an early `return picked[:target]` (modelled by `Sum.inl`) as soon as
`target` items are picked.  `Sum.inr` carries (picked, deferred, counts). -/
def fpass (cap target : Nat) :
    List RItem → List RItem → List RItem → List (String × Nat) →
    (List RItem ⊕ (List RItem × List RItem × List (String × Nat)))
  | [], picked, deferred, counts => Sum.inr (picked, deferred, counts)
  | x :: rest, picked, deferred, counts =>
    if cGet counts (brandKey x) < cap then
      let picked' := picked ++ [x]
      if target ≤ picked'.length then Sum.inl (picked'.take target)
      else fpass cap target rest picked' deferred (cInc counts (brandKey x))
    else
      if target ≤ picked.length then Sum.inl (picked.take target)
      else fpass cap target rest picked (deferred ++ [x]) counts

/-- Second pass: pull deferred items back in while the cap still allows it,
stopping once `target` items are picked. -/
def spass (cap target : Nat) :
    List RItem → List RItem → List (String × Nat) → List RItem × List (String × Nat)
  | [], picked, counts => (picked, counts)
  | x :: rest, picked, counts =>
    if target ≤ picked.length then (picked, counts)
    else if cGet counts (brandKey x) < cap then
      spass cap target rest (picked ++ [x]) (cInc counts (brandKey x))
    else
      spass cap target rest picked counts

/-- Third pass: fill remaining slots from the original order ignoring the
cap, skipping ids already picked. -/
def tpass (target : Nat) : List RItem → List RItem → List RItem
  | [], picked => picked
  | x :: rest, picked =>
    if target ≤ picked.length then picked
    else if (picked.map idStr).contains (idStr x) then tpass target rest picked
    else tpass target rest (picked ++ [x])

/-- Second and third pass of `_apply_brand_diversity` after a completed
first pass, followed by the final `picked[:target]`. -/
def abdRest (cap target : Nat) (candidates picked deferred : List RItem)
    (counts : List (String × Nat)) : List RItem :=
  if (spass cap target deferred picked counts).1.length < target then
    (tpass target candidates (spass cap target deferred picked counts).1).take target
  else ((spass cap target deferred picked counts).1).take target

/-- Embeds `Reranker._apply_brand_diversity(candidates, max_per_brand, limit)`. -/
def applyBrandDiversity (candidates : List RItem) (cap : Nat) (limit : Option Nat) :
    List RItem :=
  if candidates.isEmpty then []
  else
    match fpass cap (pyOrNat limit candidates.length) candidates [] [] [] with
    | Sum.inl out => out
    | Sum.inr (picked, deferred, counts) =>
      abdRest cap (pyOrNat limit candidates.length) candidates picked deferred counts

/-- The index order used by `Reranker.rerank`: the oracle's answer, or
`range(min(top_k, len(candidates)))` when the oracle call raised. -/
def rerankOrder (oracle : Except String (List Nat)) (topK n : Nat) : List Nat :=
  match oracle with
  | Except.ok o => o
  | Except.error _ => List.range (min topK n)

/-- Embeds `Reranker.rerank`: gather `[candidates[i] for i in order if i < len]`,
run the brand-diversity pass with `max_per_brand=2, limit=top_k`, truncate
to `top_k`. -/
def rerank (oracle : Except String (List Nat)) (candidates : List RItem)
    (topK : Nat) : List RItem :=
  if candidates.isEmpty then []
  else
    (applyBrandDiversity
      ((rerankOrder oracle topK candidates.length).filterMap (fun i => candidates[i]?))
      2 (some topK)).take topK

/-- Number of distinct brand keys in the batch. -/
def distinctBrands (l : List RItem) : Nat := ((l.map brandKey).dedup).length

/-- The first pass run to completion, without the early return: the greedy
cap-respecting selection (used to phrase when the cap-respecting passes can
fill the window). -/
def greedySel (cap : Nat) (counts : List (String × Nat)) : List RItem → List RItem
  | [] => []
  | x :: rest =>
    if cGet counts (brandKey x) < cap then
      x :: greedySel cap (cInc counts (brandKey x)) rest
    else greedySel cap counts rest

/-! ### Reranker lemmas -/

theorem cGet_cons (k' : String) (v : Nat) (t : List (String × Nat)) (j : String) :
    cGet ((k', v) :: t) j = if k' = j then v else cGet t j := by
  by_cases h : k' = j <;> simp [cGet, List.find?_cons, h]

theorem cGet_cInc (m : List (String × Nat)) (k j : String) :
    cGet (cInc m k) j = if k = j then cGet m j + 1 else cGet m j := by
  induction m with
  | nil =>
    by_cases h : k = j <;> simp [cInc, cGet_cons, cGet, h]
  | cons p t ih =>
    obtain ⟨k', v⟩ := p
    rw [cInc]
    by_cases h1 : k' = k
    · subst h1
      rw [if_pos rfl, cGet_cons, cGet_cons]
      by_cases h2 : k' = j
      · rw [if_pos h2, if_pos h2, if_pos (h2 ▸ rfl)]
      · rw [if_neg h2, if_neg h2, if_neg (fun hc : k' = j => h2 hc)]
    · rw [if_neg h1, cGet_cons, cGet_cons]
      by_cases h3 : k' = j
      · have h2 : ¬ k = j := fun hc => h1 (hc ▸ h3)
        rw [if_pos h3, if_pos h3, if_neg h2]
      · rw [if_neg h3, if_neg h3, ih]

theorem cGet_cInc_le (m : List (String × Nat)) (k j : String) :
    cGet m j ≤ cGet (cInc m k) j := by
  rw [cGet_cInc]
  split <;> omega

theorem countB_append_single (l : List RItem) (x : RItem) (b : String) :
    countB (l ++ [x]) b = countB l b + (if brandKey x = b then 1 else 0) := by
  by_cases h : brandKey x = b <;>
    simp [countB, List.filter_append, h]

theorem countB_sublist {l m : List RItem} (h : l.Sublist m) (b : String) :
    countB l b ≤ countB m b :=
  (h.filter _).length_le

theorem countB_take_le (l : List RItem) (n : Nat) (b : String) :
    countB (l.take n) b ≤ countB l b :=
  countB_sublist (List.take_sublist n l) b

/-- Appending a cap-allowed pick keeps the counter accurate. -/
theorem cAcc_update {counts : List (String × Nat)} {picked : List RItem} (x : RItem)
    (hacc : ∀ b, cGet counts b = countB picked b) :
    ∀ b, cGet (cInc counts (brandKey x)) b = countB (picked ++ [x]) b := by
  intro b
  rw [cGet_cInc, countB_append_single, hacc b]
  by_cases h : brandKey x = b <;> simp [h]

/-- Appending a cap-allowed pick keeps all brand counts within the cap. -/
theorem countB_cap_update {cap : Nat} {counts : List (String × Nat)} {picked : List RItem}
    {x : RItem} (hacc : ∀ b, cGet counts b = countB picked b)
    (hcap : ∀ b, countB picked b ≤ cap) (h1 : cGet counts (brandKey x) < cap) :
    ∀ b, countB (picked ++ [x]) b ≤ cap := by
  intro b
  rw [countB_append_single]
  by_cases h : brandKey x = b
  · subst h
    have hb := hacc (brandKey x)
    simp only [if_pos rfl, if_true, eq_self_iff_true]
    omega
  · simp [h, hcap b]

/-- First pass, cap side: starting from accurate counts with all brands
within the cap, the early-return output respects the cap, and a completed
first pass returns accurate counts, a cap-respecting picked list equal to
the greedy selection prefixed by the accumulator. -/
theorem fpass_cap (cap target : Nat) (rest : List RItem) :
    ∀ picked deferred counts,
    (∀ b, cGet counts b = countB picked b) →
    (∀ b, countB picked b ≤ cap) →
    (∀ out, fpass cap target rest picked deferred counts = Sum.inl out →
      ∀ b, countB out b ≤ cap) ∧
    (∀ P D C, fpass cap target rest picked deferred counts = Sum.inr (P, D, C) →
      (∀ b, cGet C b = countB P b) ∧ (∀ b, countB P b ≤ cap) ∧
      P = picked ++ greedySel cap counts rest) := by
  induction rest with
  | nil =>
    intro picked deferred counts hacc hcap
    refine ⟨fun out hout => by simp [fpass] at hout, ?_⟩
    intro P D C hPDC
    simp only [fpass, Sum.inr.injEq, Prod.mk.injEq] at hPDC
    obtain ⟨rfl, -, rfl⟩ := hPDC
    exact ⟨hacc, hcap, by simp [greedySel]⟩
  | cons x rest ih =>
    intro picked deferred counts hacc hcap
    constructor
    · intro out hout
      rw [fpass] at hout
      by_cases h1 : cGet counts (brandKey x) < cap
      · rw [if_pos h1] at hout
        simp only at hout
        by_cases h2 : target ≤ (picked ++ [x]).length
        · rw [if_pos h2] at hout
          injection hout with hout
          subst hout
          intro b
          exact le_trans (countB_take_le _ _ _) (countB_cap_update hacc hcap h1 b)
        · rw [if_neg h2] at hout
          exact (ih (picked ++ [x]) deferred (cInc counts (brandKey x))
            (cAcc_update x hacc) (countB_cap_update hacc hcap h1)).1 out hout
      · rw [if_neg h1] at hout
        by_cases h2 : target ≤ picked.length
        · rw [if_pos h2] at hout
          injection hout with hout
          subst hout
          intro b
          exact le_trans (countB_take_le _ _ _) (hcap b)
        · rw [if_neg h2] at hout
          exact (ih picked (deferred ++ [x]) counts hacc hcap).1 out hout
    · intro P D C hPDC
      rw [fpass] at hPDC
      by_cases h1 : cGet counts (brandKey x) < cap
      · rw [if_pos h1] at hPDC
        simp only at hPDC
        by_cases h2 : target ≤ (picked ++ [x]).length
        · rw [if_pos h2] at hPDC
          exact absurd hPDC (by simp)
        · rw [if_neg h2] at hPDC
          obtain ⟨hCacc, hCcap, hPeq⟩ :=
            (ih (picked ++ [x]) deferred (cInc counts (brandKey x))
              (cAcc_update x hacc) (countB_cap_update hacc hcap h1)).2 P D C hPDC
          refine ⟨hCacc, hCcap, ?_⟩
          rw [hPeq, greedySel, if_pos h1, List.append_assoc, List.singleton_append]
      · rw [if_neg h1] at hPDC
        by_cases h2 : target ≤ picked.length
        · rw [if_pos h2] at hPDC
          exact absurd hPDC (by simp)
        · rw [if_neg h2] at hPDC
          obtain ⟨hCacc, hCcap, hPeq⟩ :=
            (ih picked (deferred ++ [x]) counts hacc hcap).2 P D C hPDC
          refine ⟨hCacc, hCcap, ?_⟩
          rw [hPeq, greedySel, if_neg h1]

/-- Second pass, cap side: with accurate counts and all brands within the
cap, the second pass keeps all brands within the cap and only appends. -/
theorem spass_cap (cap target : Nat) (deferred : List RItem) :
    ∀ picked counts,
    (∀ b, cGet counts b = countB picked b) →
    (∀ b, countB picked b ≤ cap) →
    (∀ b, countB (spass cap target deferred picked counts).1 b ≤ cap) ∧
    picked.length ≤ (spass cap target deferred picked counts).1.length := by
  induction deferred with
  | nil => intro picked counts hacc hcap; exact ⟨hcap, le_refl _⟩
  | cons x rest ih =>
    intro picked counts hacc hcap
    rw [spass]
    by_cases h0 : target ≤ picked.length
    · rw [if_pos h0]; exact ⟨hcap, le_refl _⟩
    · rw [if_neg h0]
      by_cases h1 : cGet counts (brandKey x) < cap
      · rw [if_pos h1]
        have h2 := ih (picked ++ [x]) (cInc counts (brandKey x))
          (cAcc_update x hacc) (countB_cap_update hacc hcap h1)
        refine ⟨h2.1, le_trans ?_ h2.2⟩
        simp
      · rw [if_neg h1]
        exact ih picked counts hacc hcap

/-- First pass, totality side: when the whole input fits inside `target`,
the early return can only fire on the last element with nothing deferred,
and a completed pass splits the input into a picked sublist and deferred
items whose brands are at the cap. -/
theorem fpass_total (cap target : Nat) (rest : List RItem) :
    ∀ picked deferred counts,
    picked.length + deferred.length + rest.length ≤ target →
    (∀ x ∈ deferred, cap ≤ cGet counts (brandKey x)) →
    (∀ out, fpass cap target rest picked deferred counts = Sum.inl out →
      out = picked ++ rest ∧ deferred = []) ∧
    (∀ P D C, fpass cap target rest picked deferred counts = Sum.inr (P, D, C) →
      (∃ P2, P = picked ++ P2 ∧ P2.Sublist rest) ∧
      (∀ x ∈ D, cap ≤ cGet C (brandKey x))) := by
  induction rest with
  | nil =>
    intro picked deferred counts _hlen hdef
    refine ⟨fun out hout => by simp [fpass] at hout, ?_⟩
    intro P D C hPDC
    simp only [fpass, Sum.inr.injEq, Prod.mk.injEq] at hPDC
    obtain ⟨rfl, rfl, rfl⟩ := hPDC
    exact ⟨⟨[], by simp, List.Sublist.refl _⟩, hdef⟩
  | cons x rest ih =>
    intro picked deferred counts hlen hdef
    have hdef' : ∀ y ∈ deferred, cap ≤ cGet (cInc counts (brandKey x)) (brandKey y) :=
      fun y hy => le_trans (hdef y hy) (cGet_cInc_le counts _ _)
    constructor
    · intro out hout
      rw [fpass] at hout
      by_cases h1 : cGet counts (brandKey x) < cap
      · rw [if_pos h1] at hout
        simp only at hout
        by_cases h2 : target ≤ (picked ++ [x]).length
        · rw [if_pos h2] at hout
          -- within-budget early return: everything so far was picked,
          -- nothing is deferred and nothing remains
          have hd : deferred = [] ∧ rest = [] := by
            constructor
            · cases deferred with
              | nil => rfl
              | cons d ds => simp at hlen h2; omega
            · cases rest with
              | nil => rfl
              | cons r rs => simp at hlen h2; omega
          obtain ⟨hd1, hd2⟩ := hd
          subst hd1; subst hd2
          injection hout with hout
          subst hout
          refine ⟨?_, rfl⟩
          have hl : (picked ++ [x]).length ≤ target := by simpa using hlen
          rw [List.take_of_length_le hl]
        · rw [if_neg h2] at hout
          obtain ⟨h3, h4⟩ := (ih (picked ++ [x]) deferred (cInc counts (brandKey x))
            (by simp at hlen ⊢; omega) hdef').1 out hout
          have : deferred = [] := h4
          subst this
          refine ⟨?_, rfl⟩
          rw [h3, List.append_assoc, List.singleton_append]
      · rw [if_neg h1] at hout
        by_cases h2 : target ≤ picked.length
        · rw [if_pos h2] at hout
          exfalso
          simp at hlen
          omega
        · rw [if_neg h2] at hout
          obtain ⟨h3, h4⟩ := (ih picked (deferred ++ [x]) counts
            (by simp at hlen ⊢; omega)
            (fun y hy => by
              rcases List.mem_append.mp hy with hy' | hy'
              · exact hdef y hy'
              · rw [List.mem_singleton.mp hy']
                omega)).1 out hout
          exact absurd h4 (by simp)
    · intro P D C hPDC
      rw [fpass] at hPDC
      by_cases h1 : cGet counts (brandKey x) < cap
      · rw [if_pos h1] at hPDC
        simp only at hPDC
        by_cases h2 : target ≤ (picked ++ [x]).length
        · rw [if_pos h2] at hPDC
          exact absurd hPDC (by simp)
        · rw [if_neg h2] at hPDC
          obtain ⟨⟨P2, hP2, hsub⟩, hD⟩ := (ih (picked ++ [x]) deferred
            (cInc counts (brandKey x)) (by simp at hlen ⊢; omega) hdef').2 P D C hPDC
          refine ⟨⟨x :: P2, ?_, hsub.cons₂ x⟩, hD⟩
          rw [hP2, List.append_assoc, List.singleton_append]
      · rw [if_neg h1] at hPDC
        by_cases h2 : target ≤ picked.length
        · rw [if_pos h2] at hPDC
          exfalso
          simp at hlen
          omega
        · rw [if_neg h2] at hPDC
          obtain ⟨⟨P2, hP2, hsub⟩, hD⟩ := (ih picked (deferred ++ [x]) counts
            (by simp at hlen ⊢; omega)
            (fun y hy => by
              rcases List.mem_append.mp hy with hy' | hy'
              · exact hdef y hy'
              · rw [List.mem_singleton.mp hy']
                omega)).2 P D C hPDC
          exact ⟨⟨P2, hP2, hsub.cons x⟩, hD⟩

/-- Second pass, silent case: if every deferred brand is already at the
cap, the second pass adds nothing. -/
theorem spass_silent (cap target : Nat) (deferred : List RItem) :
    ∀ picked counts,
    (∀ x ∈ deferred, cap ≤ cGet counts (brandKey x)) →
    spass cap target deferred picked counts = (picked, counts) := by
  induction deferred with
  | nil => intro picked counts _; rfl
  | cons x rest ih =>
    intro picked counts hdef
    rw [spass]
    by_cases h0 : target ≤ picked.length
    · rw [if_pos h0]
    · rw [if_neg h0]
      have h1 : ¬ cGet counts (brandKey x) < cap := by
        have := hdef x (List.mem_cons_self _ _)
        omega
      rw [if_neg h1]
      exact ih picked counts (fun y hy => hdef y (List.mem_cons_of_mem _ hy))

/-- Third pass: under distinct ids and enough room, the fill pass appends
exactly the not-yet-picked candidates, in their original order. -/
theorem tpass_fill (target : Nat) (cs : List RItem) :
    ∀ p0, (cs.map idStr).Nodup →
    p0.length + (cs.filter (fun x => idStr x ∉ p0.map idStr)).length ≤ target →
    tpass target cs p0 = p0 ++ cs.filter (fun x => idStr x ∉ p0.map idStr) := by
  induction cs with
  | nil => intro p0 _ _; simp [tpass]
  | cons c cs ih =>
    intro p0 hnd hlen
    rw [tpass]
    rw [List.map_cons, List.nodup_cons] at hnd
    obtain ⟨hcnotin, hnd'⟩ := hnd
    by_cases h0 : target ≤ p0.length
    · rw [if_pos h0]
      have hf0 : (List.filter (fun x => decide (idStr x ∉ p0.map idStr)) (c :: cs)).length = 0 := by
        omega
      rw [List.length_eq_zero] at hf0
      rw [hf0, List.append_nil]
    · rw [if_neg h0]
      by_cases h1 : (p0.map idStr).contains (idStr c)
      · rw [if_pos h1]
        have hmem : idStr c ∈ p0.map idStr := by
          simpa using h1
        have hfil : List.filter (fun x => decide (idStr x ∉ p0.map idStr)) (c :: cs)
            = List.filter (fun x => decide (idStr x ∉ p0.map idStr)) cs := by
          rw [List.filter_cons]
          simp [hmem]
        rw [hfil] at hlen ⊢
        exact ih p0 hnd' hlen
      · rw [if_neg h1]
        have hmem : idStr c ∉ p0.map idStr := by
          simpa using h1
        have hfil : List.filter (fun x => decide (idStr x ∉ p0.map idStr)) (c :: cs)
            = c :: List.filter (fun x => decide (idStr x ∉ p0.map idStr)) cs := by
          rw [List.filter_cons]
          simp [hmem]
        have hcongr : List.filter (fun x => decide (idStr x ∉ (p0 ++ [c]).map idStr)) cs
            = List.filter (fun x => decide (idStr x ∉ p0.map idStr)) cs := by
          refine List.filter_congr ?_
          intro x hx
          have hne : idStr x ≠ idStr c := fun he => hcnotin (he ▸ List.mem_map_of_mem idStr hx)
          simp [hne]
        have hrec := ih (p0 ++ [c]) hnd'
          (by
            rw [hcongr]
            rw [hfil] at hlen
            simp at hlen ⊢
            omega)
        rw [hrec, hcongr, hfil, List.append_assoc, List.singleton_append]

/-- Partition permutation: a sublist together with the id-complement filter
of the full list is a permutation of the full list, when ids are distinct. -/
theorem sublist_filter_perm (cs : List RItem) :
    ∀ P, P.Sublist cs → (cs.map idStr).Nodup →
    List.Perm (P ++ cs.filter (fun x => idStr x ∉ P.map idStr)) cs := by
  induction cs with
  | nil =>
    intro P hP _
    rw [List.sublist_nil.mp hP]
    simp
  | cons c cs ih =>
    intro P hP hnd
    rw [List.map_cons, List.nodup_cons] at hnd
    obtain ⟨hcnotin, hnd'⟩ := hnd
    cases hP with
    | cons _ hP' =>
      -- c is not matched into P
      have hPid : idStr c ∉ P.map idStr := by
        intro hmem
        rcases List.mem_map.mp hmem with ⟨y, hy, he⟩
        exact hcnotin (he ▸ List.mem_map_of_mem idStr (hP'.mem hy))
      have hfil : List.filter (fun x => decide (idStr x ∉ P.map idStr)) (c :: cs)
          = c :: List.filter (fun x => decide (idStr x ∉ P.map idStr)) cs := by
        rw [List.filter_cons]
        simp [hPid]
      rw [hfil]
      exact (List.perm_middle).trans (List.Perm.cons c (ih P hP' hnd'))
    | cons₂ _ hP' =>
      -- P = c :: P'
      rename_i P'
      have hfil : List.filter (fun x => decide (idStr x ∉ (c :: P').map idStr)) (c :: cs)
          = List.filter (fun x => decide (idStr x ∉ (c :: P').map idStr)) cs := by
        rw [List.filter_cons]
        simp
      have hcongr : List.filter (fun x => decide (idStr x ∉ (c :: P').map idStr)) cs
          = List.filter (fun x => decide (idStr x ∉ P'.map idStr)) cs := by
        refine List.filter_congr ?_
        intro x hx
        have hne : idStr x ≠ idStr c := fun he => hcnotin (he ▸ List.mem_map_of_mem idStr hx)
        simp [hne]
      rw [hfil, hcongr, List.cons_append]
      exact List.Perm.cons c (ih P' hP' hnd')

/-- When the whole batch fits inside the window, the brand-diversity pass
returns a permutation of the batch (distinct ids assumed). -/
theorem abd_perm (R : List RItem) (cap : Nat) (lim : Option Nat)
    (hnd : (R.map idStr).Nodup) (hlen : R.length ≤ pyOrNat lim R.length) :
    List.Perm (applyBrandDiversity R cap lim) R := by
  by_cases hR : R.isEmpty
  · rw [List.isEmpty_iff.mp hR]
    simp [applyBrandDiversity]
  · rcases hfp : fpass cap (pyOrNat lim R.length) R [] [] [] with out | PDC
    · obtain ⟨hout, -⟩ := (fpass_total cap (pyOrNat lim R.length) R [] [] []
        (by simpa using hlen) (by simp)).1 out hfp
      rw [applyBrandDiversity, if_neg hR, hfp]
      rw [hout, List.nil_append]
    · obtain ⟨P, D, C⟩ := PDC
      obtain ⟨⟨P2, hP2, hsub⟩, hD⟩ := (fpass_total cap (pyOrNat lim R.length) R [] [] []
        (by simpa using hlen) (by simp)).2 P D C hfp
      rw [List.nil_append] at hP2
      subst hP2
      have hsp : (spass cap (pyOrNat lim R.length) D P C).1 = P := by
        rw [spass_silent cap (pyOrNat lim R.length) D P C hD]
      rw [applyBrandDiversity, if_neg hR, hfp]
      simp only [abdRest, hsp]
      have hperm := sublist_filter_perm R P hsub hnd
      have hlens : P.length +
          (R.filter (fun x => idStr x ∉ P.map idStr)).length = R.length := by
        simpa using hperm.length_eq
      by_cases hb : P.length < pyOrNat lim R.length
      · rw [if_pos hb]
        rw [tpass_fill (pyOrNat lim R.length) R P hnd (by omega)]
        rw [List.take_of_length_le (by simp at hlens ⊢; omega)]
        exact hperm
      · rw [if_neg hb]
        have h1 : P.length = R.length := le_antisymm hsub.length_le (by omega)
        rw [hsub.eq_of_length h1]
        rw [List.take_of_length_le (by omega)]

/-- Embeds `[candidates[i] for i in range(min(top_k, n)) if i < n]` is the length-
`top_k` prefix of the candidate list. -/
theorem range_filterMap_take (cs : List RItem) (k : Nat) :
    (List.range (min k cs.length)).filterMap (fun i => cs[i]?) = cs.take k := by
  have aux : ∀ m, m ≤ cs.length →
      (List.range m).filterMap (fun i => cs[i]?) = cs.take m := by
    intro m
    induction m with
    | zero => intro _; simp
    | succ m ih =>
      intro hm
      rw [List.range_succ, List.filterMap_append, ih (by omega), List.take_succ]
      congr 1
  have h1 : cs.take k = cs.take (min k cs.length) := by
    rcases le_total k cs.length with h | h
    · rw [min_eq_left h]
    · rw [min_eq_right h, List.take_of_length_le h, List.take_length]
  rw [h1]
  exact aux _ (min_le_right _ _)

/-! ### Claims C4 and C7 -/

/-- Concrete reranker items for the counterexamples: three of brand A, two
of brand B, with distinct ids. -/
def rItemA1 : RItem := { id := some "1", brand := some "A", payload := "a1" }

def rItemA2 : RItem := { id := some "2", brand := some "A", payload := "a2" }

def rItemA3 : RItem := { id := some "3", brand := some "A", payload := "a3" }

def rItemB1 : RItem := { id := some "4", brand := some "B", payload := "b1" }

def rItemB2 : RItem := { id := some "5", brand := some "B", payload := "b2" }

/-- C4 counterexample: with cap 2 and window 5 on the batch
`[A, A, A, B, B]` (two distinct brands, so not fewer than cap-many), the
fill pass readmits the third brand-A item, and brand A occupies 3 > 2
slots of the top-5 window. -/
theorem c4_diversity_counterexample :
    2 ≤ distinctBrands [rItemA1, rItemA2, rItemA3, rItemB1, rItemB2] ∧
    applyBrandDiversity [rItemA1, rItemA2, rItemA3, rItemB1, rItemB2] 2 (some 5)
      = [rItemA1, rItemA2, rItemB1, rItemB2, rItemA3] ∧
    2 < countB
      (applyBrandDiversity [rItemA1, rItemA2, rItemA3, rItemB1, rItemB2] 2 (some 5))
      "a" := ⟨by decide, by decide, by decide⟩

/-- C4 (amended): no brand exceeds the per-brand cap in the output window
whenever the cap-respecting greedy pass can fill the window on its own;
when it cannot (even though cap-many distinct brands may exist), the
remaining slots are filled from the original order ignoring the cap. -/
theorem c4_diversity_cap (cs : List RItem) (cap : Nat) (limit : Option Nat)
    (hfill : pyOrNat limit cs.length ≤ (greedySel cap [] cs).length) :
    ∀ b, countB (applyBrandDiversity cs cap limit) b ≤ cap := by
  intro b
  by_cases hcs : cs.isEmpty
  · rw [applyBrandDiversity, if_pos hcs]
    exact Nat.zero_le cap
  · have hacc0 : ∀ b, cGet ([] : List (String × Nat)) b = countB ([] : List RItem) b := by
      intro b; simp [cGet, countB]
    have hcap0 : ∀ b, countB ([] : List RItem) b ≤ cap := by
      intro b; simp [countB]
    rcases hfp : fpass cap (pyOrNat limit cs.length) cs [] [] [] with out | PDC
    · rw [applyBrandDiversity, if_neg hcs, hfp]
      exact (fpass_cap cap (pyOrNat limit cs.length) cs [] [] [] hacc0 hcap0).1 out hfp b
    · obtain ⟨P, D, C⟩ := PDC
      obtain ⟨hCacc, hCcap, hPeq⟩ :=
        (fpass_cap cap (pyOrNat limit cs.length) cs [] [] [] hacc0 hcap0).2 P D C hfp
      rw [List.nil_append] at hPeq
      have hPlen : pyOrNat limit cs.length ≤ P.length := by rw [hPeq]; exact hfill
      obtain ⟨hsc, hsl⟩ := spass_cap cap (pyOrNat limit cs.length) D P C hCacc hCcap
      rw [applyBrandDiversity, if_neg hcs, hfp]
      simp only [abdRest]
      rw [if_neg (by omega)]
      exact le_trans (countB_take_le _ _ _) (hsc b)

/-- C4 witness: the amended cap bound applied to a batch whose greedy pass
fills the window. -/
theorem c4_diversity_cap_witness :
    pyOrNat (some 2) ([rItemA1, rItemB1] : List RItem).length
        ≤ (greedySel 2 [] [rItemA1, rItemB1]).length ∧
    countB (applyBrandDiversity [rItemA1, rItemB1] 2 (some 2)) "a" ≤ 2 :=
  ⟨by decide, c4_diversity_cap [rItemA1, rItemB1] 2 (some 2) (by decide) "a"⟩

/-- C7 counterexample: on oracle failure the reranker does fall back to the
identity index order, but the brand-diversity pass still reorders the
result, so the output is not the retrieval-given prefix itself. -/
theorem c7_rerank_counterexample :
    rerank (Except.error "oracle down") [rItemA1, rItemA2, rItemA3, rItemB1] 4
      = [rItemA1, rItemA2, rItemB1, rItemA3] ∧
    rerank (Except.error "oracle down") [rItemA1, rItemA2, rItemA3, rItemB1] 4
      ≠ List.take 4 [rItemA1, rItemA2, rItemA3, rItemB1] := ⟨by decide, by decide⟩

/-- C7 (amended): if the ranking-oracle call fails, the reranker does not
fail: it falls back to the identity permutation as the ranking order, then
applies the brand-diversity pass, so the output is a permutation of the
first `min(top_k, n)` candidates in retrieval order, truncated to `top_k`
(assuming distinct candidate ids, as holds within one retrieval batch). -/
theorem c7_rerank_fallback (cs : List RItem) (k : Nat) (msg : String)
    (hnd : (cs.map idStr).Nodup) :
    List.Perm (rerank (Except.error msg) cs k) (cs.take k) := by
  by_cases hcs : cs.isEmpty
  · rw [rerank, if_pos hcs, List.isEmpty_iff.mp hcs]
    simp
  · rw [rerank, if_neg hcs]
    rw [show rerankOrder (Except.error msg) k cs.length
        = List.range (min k cs.length) from rfl]
    rw [range_filterMap_take cs k]
    have hndR : ((cs.take k).map idStr).Nodup := by
      exact hnd.sublist ((List.take_sublist k cs).map idStr)
    have hlenR : (cs.take k).length ≤ pyOrNat (some k) (cs.take k).length := by
      cases k with
      | zero => simp [pyOrNat]
      | succ n =>
        simp only [pyOrNat]
        rw [List.length_take]
        exact min_le_left _ _
    have habd := abd_perm (cs.take k) 2 (some k) hndR hlenR
    have hlen2 : (applyBrandDiversity (cs.take k) 2 (some k)).length ≤ k := by
      rw [habd.length_eq, List.length_take]
      exact min_le_left _ _
    rw [List.take_of_length_le hlen2]
    exact habd

/-- C7 witness: the amended fallback property at a concrete failing-oracle
call. -/
theorem c7_rerank_fallback_witness :
    (([rItemA1, rItemB1] : List RItem).map idStr).Nodup ∧
    List.Perm (rerank (Except.error "boom") [rItemA1, rItemB1] 2)
      (List.take 2 [rItemA1, rItemB1]) :=
  ⟨by decide, c7_rerank_fallback [rItemA1, rItemB1] 2 "boom" (by decide)⟩

/-! ## Vision validator (`src/backend/validators/vision_validator.py`)

`VisionValidator._validate_product` is the deterministic rule check of the
heuristic fallback; `_heuristic_validate` maps it over a candidate batch
with rank-decayed scores; `_llm_validate` re-merges validator rows (which
carry only id/score/tag/reason) with the full candidate records;
`VisionValidateNode._attach_products` re-merges again on the node side. -/

/-- The validator-side view of a query: the keys `_validate_product`
reads. -/
structure QueryV where
  colors : List String
  colorMode : Option String
  pattern : Option String
  itemType : Option String
deriving DecidableEq

/-- A candidate record with the fields the validator pipeline touches;
`attributes` stands in for the remaining payload of the dict. -/
structure Cand where
  id : Option String
  title : Option String
  brand : Option String
  price : Option ℚ
  imageUrl : Option String
  source : Option String
  origin : Option String
  attributes : Option String
  color : List String
  pattern : Option String
  score : Option ℚ
  tag : Option String
  reason : Option String
  isValid : Option Bool
  validatorScore : Option ℚ
  validatorTag : Option String
  validatorReason : Option String
deriving DecidableEq

/-- A validator row as round-tripped through the oracle: only id, score,
tag, reason, and the acceptance flag. -/
structure VRow where
  id : Option String
  score : Option ℚ
  tag : Option String
  reason : Option String
  isValid : Option Bool
deriving DecidableEq

/-- A (valid, invalid) partition of validator rows. -/
structure VResult where
  valid : List VRow
  invalid : List VRow
deriving DecidableEq

/-- Rejection rule 1 of `_validate_product`: a required color is entirely
absent and the query is in strict `all_required` color mode. -/
def colorReject (q : QueryV) (p : Cand) : Bool :=
  !(q.colors.filter (fun c => c ∉ p.color.map pyLower)).isEmpty &&
    (q.colorMode == some "all_required")

/-- Rejection rule 2: an explicit pattern mismatch (both patterns truthy
and the expected pattern does not occur in the product pattern). -/
def patternReject (q : QueryV) (p : Cand) : Bool :=
  optStrTruthy q.pattern && optStrTruthy p.pattern &&
    !(pyIn (q.pattern.getD "") (p.pattern.getD ""))

/-- Rejection rule 3: the item-type token is absent from the lowercased
title. -/
def titleReject (q : QueryV) (p : Cand) : Bool :=
  optStrTruthy q.itemType && !(pyIn (q.itemType.getD "") (pyLower (p.title.getD "")))

/-- Embeds `VisionValidator._validate_product`: returns the rejection reason, or
`""` when the product passes all three rules. -/
def validateProduct (q : QueryV) (p : Cand) : String :=
  if colorReject q p then
    "Missing colors: " ++
      String.intercalate ", " (q.colors.filter (fun c => c ∉ p.color.map pyLower))
  else if patternReject q p then
    "Pattern mismatch: expected " ++ q.pattern.getD "" ++ ", got " ++ p.pattern.getD ""
  else if titleReject q p then
    "Title does not mention " ++ q.itemType.getD ""
  else ""

/-- Embeds `VisionValidator._score_product`: source-dependent baseline with a
rank-decayed penalty (Python's `round(·, 2)` is the identity on these
exact two-decimal rationals). -/
def scoreProduct (position : Nat) (source : String) : ℚ :=
  max (1/2) ((if source = "qdrant" then (9 : ℚ)/10 else 8/10) -
    min ((position : ℚ) * (2/100)) (2/10))

/-- The row loop of `_heuristic_validate`, carrying the enumeration
index. -/
def heuristicRows (q : QueryV) (source : String) : Nat → List Cand → VResult
  | _, [] => ⟨[], []⟩
  | idx, p :: rest =>
    let r := heuristicRows q source (idx + 1) rest
    if validateProduct q p ≠ "" then
      ⟨r.valid,
        { id := p.id, score := none, tag := some "weak_match",
          reason := some (validateProduct q p), isValid := some false } :: r.invalid⟩
    else
      ⟨{ id := p.id, score := some (scoreProduct idx source),
          tag := some (if idx = 0 then "best_match" else "close_match"),
          reason := some "", isValid := some true } :: r.valid, r.invalid⟩

/-- Embeds `VisionValidator._heuristic_validate`. -/
def heuristicValidate (q : QueryV) (cands : List Cand) (source : String) : VResult :=
  heuristicRows q source 0 cands

/-- Python `cand.get("image_url")` truthy, a string, starting with
`"http"`. -/
def hasImage (c : Cand) : Bool :=
  match c.imageUrl with
  | none => false
  | some u => startsWithL "http".data u.data

/-- Last-wins id lookup, mirroring the dict comprehension
`{str(c.get("id")): c for c in candidates}` followed by `.get(cid)`. -/
def lookupByStr (cands : List Cand) (cid : String) : Option Cand :=
  cands.reverse.find? (fun c => pyStr c.id = cid)

/-- Enrichment of a *valid* row in `_llm_validate`: merge the row back with
the full original record, writing only score, tag, reason and the
acceptance flag. -/
def enrichValid (cands : List Cand) (rows : List VRow) : List Cand :=
  rows.filterMap (fun row =>
    match lookupByStr cands (pyStr row.id) with
    | none => none
    | some orig => some { orig with
        score := some (row.score.getD (85/100)),
        tag := some (row.tag.getD "close_match"),
        reason := some (row.reason.getD ""),
        isValid := some true })

/-- Enrichment of an *invalid* row in `_llm_validate`. -/
def enrichInvalid (cands : List Cand) (rows : List VRow) : List Cand :=
  rows.filterMap (fun row =>
    match lookupByStr cands (pyStr row.id) with
    | none => none
    | some orig => some { orig with
        isValid := some false,
        tag := some (row.tag.getD "weak_match"),
        reason := some (row.reason.getD "invalidated by vision") })

/-- The raw (valid, invalid) rows accumulated by `_llm_validate` before
enrichment: the capped image-bearing prefix goes to the vision oracle
(falling back to the heuristic on oracle failure), the overflow and the
image-less candidates go to the heuristic. -/
def llmRows (oracle : Except Unit (List VRow × List VRow)) (q : QueryV)
    (cands : List Cand) (source : String) : VResult :=
  let withImages := cands.filter (fun c => hasImage c)
  let withoutImages := cands.filter (fun c => !(hasImage c))
  let visionCands := withImages.take 12
  let remaining := withImages.drop 12
  let base : VResult :=
    if visionCands.isEmpty then ⟨[], []⟩
    else match oracle with
      | Except.ok (v, inv) => ⟨v, inv⟩
      | Except.error _ => heuristicValidate q visionCands source
  let h1 := heuristicValidate q remaining source
  let h2 := heuristicValidate q withoutImages source
  ⟨base.valid ++ h1.valid ++ h2.valid, base.invalid ++ h1.invalid ++ h2.invalid⟩

/-- Embeds `VisionValidator._llm_validate`: rows (oracle or heuristic) are merged
back with the full candidate records; rows whose id is unknown are
dropped. -/
def llmValidate (oracle : Except Unit (List VRow × List VRow)) (q : QueryV)
    (cands : List Cand) (source : String) : List Cand × List Cand :=
  ((enrichValid cands (llmRows oracle q cands source).valid),
   (enrichInvalid cands (llmRows oracle q cands source).invalid))

/-- Embeds `{"id": row["id"]}`, the default record used by `_attach_products`
when a validated row's id is not among the candidates. -/
def bareCand (i : Option String) : Cand :=
  { id := i, title := none, brand := none, price := none, imageUrl := none,
    source := none, origin := none, attributes := none, color := [],
    pattern := none, score := none, tag := none, reason := none,
    isValid := none, validatorScore := none, validatorTag := none,
    validatorReason := none }

/-- Python `product.get("source") or product.get("origin")`. -/
def pyOrStr (a b : Option String) : Option String :=
  if optStrTruthy a then a else b

/-- Embeds `VisionValidateNode._attach_products`: deep-copy the full candidate
record (last-wins raw-id index) and write only `validator_score`,
`validator_tag`, `validator_reason` and the normalized `origin`. -/
def attachProducts (cands validated : List Cand) : List Cand :=
  validated.map (fun row =>
    let product := match cands.reverse.find? (fun c => c.id = row.id) with
      | some c => c
      | none => bareCand row.id
    { product with
        validatorScore := row.score,
        validatorTag := row.tag,
        validatorReason := some (row.reason.getD ""),
        origin := pyOrStr product.source product.origin })

/-! ### Validator lemmas -/

theorem str_prepend_ne_empty (pre s : String) (h : 0 < pre.length) : pre ++ s ≠ "" := by
  intro he
  have h2 := congrArg String.length he
  rw [String.length_append] at h2
  have h0 : ("" : String).length = 0 := rfl
  omega

/-- The rule check passes (empty reason) iff none of the three rejection
rules fires. -/
theorem validateProduct_eq_empty_iff (q : QueryV) (p : Cand) :
    validateProduct q p = "" ↔
      colorReject q p = false ∧ patternReject q p = false ∧ titleReject q p = false := by
  unfold validateProduct
  by_cases h1 : colorReject q p
  · rw [if_pos h1]
    simp [h1, str_prepend_ne_empty "Missing colors: " _ (by decide)]
  · rw [if_neg h1]
    by_cases h2 : patternReject q p
    · rw [if_pos h2]
      constructor
      · intro he
        exact absurd he (by
          rw [String.append_assoc, String.append_assoc]
          exact str_prepend_ne_empty "Pattern mismatch: expected " _ (by decide))
      · rintro ⟨-, hp, -⟩
        exact absurd hp (by simp [h2])
    · rw [if_neg h2]
      by_cases h3 : titleReject q p
      · rw [if_pos h3]
        constructor
        · intro he
          exact absurd he (str_prepend_ne_empty "Title does not mention " _ (by decide))
        · rintro ⟨-, -, ht⟩
          exact absurd ht (by simp [h3])
      · rw [if_neg h3]
        simp [Bool.eq_false_iff, h1, h2, h3]

/-- Every invalid row of the heuristic fallback stems from a candidate that
fails the rule check. -/
theorem heuristicRows_invalid (q : QueryV) (src : String) (cands : List Cand) :
    ∀ idx, ∀ row ∈ (heuristicRows q src idx cands).invalid,
      ∃ p ∈ cands, row.id = p.id ∧ validateProduct q p ≠ "" := by
  induction cands with
  | nil => intro idx row hrow; simp [heuristicRows] at hrow
  | cons p rest ih =>
    intro idx row hrow
    rw [heuristicRows] at hrow
    by_cases hv : validateProduct q p ≠ ""
    · rw [if_pos hv] at hrow
      simp only at hrow
      rcases List.mem_cons.mp hrow with rfl | hrow'
      · exact ⟨p, List.mem_cons_self _ _, rfl, hv⟩
      · obtain ⟨p', hp', hid, hne⟩ := ih (idx + 1) row hrow'
        exact ⟨p', List.mem_cons_of_mem _ hp', hid, hne⟩
    · rw [if_neg hv] at hrow
      simp only at hrow
      obtain ⟨p', hp', hid, hne⟩ := ih (idx + 1) row hrow
      exact ⟨p', List.mem_cons_of_mem _ hp', hid, hne⟩

/-- Every candidate that passes the rule check contributes an accepted row
to the heuristic fallback output. -/
theorem heuristicRows_valid (q : QueryV) (src : String) (cands : List Cand) :
    ∀ idx, ∀ p ∈ cands, validateProduct q p = "" →
      ∃ row ∈ (heuristicRows q src idx cands).valid,
        row.id = p.id ∧ row.isValid = some true := by
  induction cands with
  | nil => intro idx p hp; simp at hp
  | cons p0 rest ih =>
    intro idx p hp hok
    rw [heuristicRows]
    rcases List.mem_cons.mp hp with rfl | hp'
    · rw [if_neg (by simpa using hok)]
      exact ⟨_, List.mem_cons_self _ _, rfl, rfl⟩
    · obtain ⟨row, hrow, hid, hval⟩ := ih (idx + 1) p hp' hok
      by_cases hv : validateProduct q p0 ≠ ""
      · rw [if_pos hv]
        exact ⟨row, hrow, hid, hval⟩
      · rw [if_neg hv]
        exact ⟨row, List.mem_cons_of_mem _ hrow, hid, hval⟩

/-! ### Claims C3 and C9 -/

/-- C3 counterexample query: red shirt, strict all-colors-required mode,
no pattern constraint. -/
def qShirt : QueryV :=
  { colors := ["red"], colorMode := some "all_required", pattern := none,
    itemType := some "shirt" }

/-- C3 counterexample product: a blue shirt — its title contains the exact
item-type token and no pattern mismatch is possible. -/
def pBlueShirt : Cand :=
  { bareCand (some "x1") with title := some "Blue Shirt", color := ["blue"] }

/-- C3 counterexample: the candidate title contains the exact item-type
token and there is no explicit pattern mismatch, yet the heuristic
fallback places the candidate in the invalid partition, because a required
color is absent under the strict `all_required` color mode. -/
theorem c3_heuristic_counterexample :
    pyIn "shirt" (pyLower (pBlueShirt.title.getD "")) = true ∧
    patternReject qShirt pBlueShirt = false ∧
    ((heuristicValidate qShirt [pBlueShirt] "qdrant").invalid.map VRow.id)
      = [some "x1"] ∧
    (heuristicValidate qShirt [pBlueShirt] "qdrant").valid = [] :=
  ⟨by decide, by decide, by decide, by decide⟩

/-- C3 (amended): the heuristic fallback places a candidate in the invalid
partition only if one of the three rejection rules fires (missing required
color under strict all-colors mode, explicit pattern mismatch, or
item-type token absent from the title); a candidate whose title contains
the exact item-type token, whose pattern does not explicitly mismatch, and
which is not missing a required color under the strict mode always lands
in the valid partition. -/
theorem c3_heuristic_leniency (q : QueryV) (cands : List Cand) (src : String) :
    (∀ row ∈ (heuristicValidate q cands src).invalid,
      ∃ p ∈ cands, row.id = p.id ∧
        (colorReject q p = true ∨ patternReject q p = true ∨ titleReject q p = true)) ∧
    (∀ p ∈ cands, colorReject q p = false → patternReject q p = false →
      titleReject q p = false →
      ∃ row ∈ (heuristicValidate q cands src).valid,
        row.id = p.id ∧ row.isValid = some true) := by
  constructor
  · intro row hrow
    obtain ⟨p, hp, hid, hne⟩ := heuristicRows_invalid q src cands 0 row hrow
    refine ⟨p, hp, hid, ?_⟩
    by_cases h1 : colorReject q p
    · exact Or.inl h1
    · by_cases h2 : patternReject q p
      · exact Or.inr (Or.inl h2)
      · by_cases h3 : titleReject q p
        · exact Or.inr (Or.inr h3)
        · exact absurd ((validateProduct_eq_empty_iff q p).mpr
            ⟨Bool.eq_false_iff.mpr h1, Bool.eq_false_iff.mpr h2, Bool.eq_false_iff.mpr h3⟩) hne
  · intro p hp h1 h2 h3
    exact heuristicRows_valid q src cands 0 p hp
      ((validateProduct_eq_empty_iff q p).mpr ⟨h1, h2, h3⟩)

/-- C3 witness: the amended leniency applied to a plain matching product. -/
theorem c3_heuristic_leniency_witness :
    colorReject qShirt { pBlueShirt with color := ["red"] } = false ∧
    ∃ row ∈ (heuristicValidate qShirt [{ pBlueShirt with color := ["red"] }] "qdrant").valid,
      row.id = some "x1" ∧ row.isValid = some true :=
  ⟨by decide,
    (c3_heuristic_leniency qShirt [{ pBlueShirt with color := ["red"] }] "qdrant").2
      { pBlueShirt with color := ["red"] } (by decide) (by decide) (by decide) (by decide)⟩

/-- The frame fields of a candidate record: everything the validator must
not lose. -/
def frameEq (c out : Cand) : Prop :=
  out.id = c.id ∧ out.title = c.title ∧ out.brand = c.brand ∧ out.price = c.price ∧
  out.imageUrl = c.imageUrl ∧ out.source = c.source ∧ out.origin = c.origin ∧
  out.attributes = c.attributes ∧ out.color = c.color ∧ out.pattern = c.pattern

theorem lookupByStr_mem {cands : List Cand} {cid : String} {c : Cand}
    (h : lookupByStr cands cid = some c) : c ∈ cands :=
  List.mem_reverse.mp (List.mem_of_find?_eq_some h)

/-- Enriched valid rows preserve the whole frame of an input candidate. -/
theorem enrichValid_frame (cands : List Cand) (rows : List VRow) :
    ∀ out ∈ enrichValid cands rows, ∃ c ∈ cands, frameEq c out := by
  intro out hout
  obtain ⟨row, _hrow, heq⟩ := List.mem_filterMap.mp hout
  rcases hl : lookupByStr cands (pyStr row.id) with - | orig
  · rw [hl] at heq; exact absurd heq (by simp)
  · rw [hl] at heq
    injection heq with heq
    subst heq
    exact ⟨orig, lookupByStr_mem hl,
      rfl, rfl, rfl, rfl, rfl, rfl, rfl, rfl, rfl, rfl⟩

/-- Enriched invalid rows preserve the whole frame of an input candidate. -/
theorem enrichInvalid_frame (cands : List Cand) (rows : List VRow) :
    ∀ out ∈ enrichInvalid cands rows, ∃ c ∈ cands, frameEq c out := by
  intro out hout
  obtain ⟨row, _hrow, heq⟩ := List.mem_filterMap.mp hout
  rcases hl : lookupByStr cands (pyStr row.id) with - | orig
  · rw [hl] at heq; exact absurd heq (by simp)
  · rw [hl] at heq
    injection heq with heq
    subst heq
    exact ⟨orig, lookupByStr_mem hl,
      rfl, rfl, rfl, rfl, rfl, rfl, rfl, rfl, rfl, rfl⟩

/-- C9: every record in the validator's valid or invalid output carries the
full frame (identifier, title, brand, price, image reference, provenance,
attributes, colors, pattern) of an original candidate — validation writes
only score, match tag, rejection reason and the acceptance flag — and the
node-side re-merge after the oracle round-trip again preserves the frame,
writing only `validator_score`, `validator_tag`, `validator_reason` and
the normalized `origin`. -/
theorem c9_validator_frame :
    (∀ (oracle : Except Unit (List VRow × List VRow)) (q : QueryV)
      (cands : List Cand) (src : String),
      ∀ out ∈ (llmValidate oracle q cands src).1 ++ (llmValidate oracle q cands src).2,
        ∃ c ∈ cands, frameEq c out) ∧
    (∀ (cands validated : List Cand),
      (∀ row ∈ validated, ∃ c ∈ cands, c.id = row.id) →
      ∀ p ∈ attachProducts cands validated,
        ∃ c ∈ cands, ∃ row ∈ validated,
          p.id = c.id ∧ p.title = c.title ∧ p.brand = c.brand ∧ p.price = c.price ∧
          p.imageUrl = c.imageUrl ∧ p.source = c.source ∧
          p.attributes = c.attributes ∧ p.color = c.color ∧ p.pattern = c.pattern ∧
          p.validatorScore = row.score ∧ p.validatorTag = row.tag ∧
          p.validatorReason = some (row.reason.getD "") ∧
          p.origin = pyOrStr c.source c.origin) := by
  constructor
  · intro oracle q cands src out hout
    rcases List.mem_append.mp hout with h | h
    · exact enrichValid_frame cands _ out h
    · exact enrichInvalid_frame cands _ out h
  · intro cands validated hids p hp
    obtain ⟨row, hrow, heq⟩ := List.mem_map.mp hp
    obtain ⟨c0, hc0, hcid⟩ := hids row hrow
    have hsome : (cands.reverse.find? (fun c => c.id = row.id)).isSome := by
      rw [List.find?_isSome]
      exact ⟨c0, List.mem_reverse.mpr hc0, by simp [hcid]⟩
    rcases hfind : cands.reverse.find? (fun c => c.id = row.id) with - | c
    · rw [hfind] at hsome; simp at hsome
    · have hc : c ∈ cands := List.mem_reverse.mp (List.mem_of_find?_eq_some hfind)
      rw [hfind] at heq
      subst heq
      exact ⟨c, hc, row, hrow,
        rfl, rfl, rfl, rfl, rfl, rfl, rfl, rfl, rfl, rfl, rfl, rfl, rfl⟩

/-- Concrete candidate for the C9 witness. -/
def candTee : Cand :=
  { bareCand (some "9") with
    title := some "Graphic Tee", brand := some "Acme",
    imageUrl := some "http://img", source := some "qdrant" }

/-- Oracle answer for the C9 witness: one valid row for the candidate. -/
def rowTee : VRow :=
  { id := some "9", score := some 1, tag := some "best_match",
    reason := some "ok", isValid := some true }

/-- The enriched output record for the C9 witness. -/
def outTee : Cand :=
  { candTee with
    score := some 1, tag := some "best_match", reason := some "ok",
    isValid := some true }

/-- The record produced by the node-side re-merge for the C9 witness. -/
def attTee : Cand :=
  { candTee with
    validatorScore := some 1, validatorTag := some "best_match",
    validatorReason := some "ok", origin := some "qdrant" }

/-- C9 witness: the frame-preservation facts applied at a concrete oracle
round-trip and a concrete node-side re-merge. -/
theorem c9_validator_frame_witness :
    (outTee ∈ (llmValidate (Except.ok ([rowTee], [])) qShirt [candTee] "qdrant").1 ++
        (llmValidate (Except.ok ([rowTee], [])) qShirt [candTee] "qdrant").2 ∧
      ∃ c ∈ [candTee], frameEq c outTee) ∧
    ((∀ row ∈ [outTee], ∃ c ∈ [candTee], Cand.id c = row.id) ∧
      ∃ c ∈ [candTee], ∃ row ∈ [outTee], attTee.id = c.id) := by
  constructor
  · exact ⟨by decide,
      (c9_validator_frame).1 (Except.ok ([rowTee], [])) qShirt [candTee] "qdrant"
        outTee (by decide)⟩
  · constructor
    · decide
    · obtain ⟨c, hc, row, hrow, h1, -⟩ :=
        (c9_validator_frame).2 [candTee] [outTee] (by decide) attTee (by decide)
      exact ⟨c, hc, row, hrow, h1⟩

/-! ## Knowledge planner gender enforcement
(`src/backend/agents/knowledge_planner_agent.py`)

`KnowledgePlannerAgent._enforce_gender` rewrites each sub-query string to
carry the known gender token: keep the string when it "already matches the
target gender", replace an opposite-gender token, or prepend the gender
token. -/

/-- A planner output: the keys the graph and `_enforce_gender` read. -/
structure Plan where
  weatherSearchQuery : Option String
  webQueries : List String
  productQueries : List String
deriving DecidableEq

/-- The apostrophe character (written via its code point). -/
def apos : Char := Char.ofNat 39

/-- The token `men's`. -/
def mensTok : String := "men" ++ String.singleton apos ++ "s"

/-- The token `women's`. -/
def womensTok : String := "women" ++ String.singleton apos ++ "s"

/-- Python `s.split("'")[0]`. -/
def splitApos (s : String) : String :=
  String.mk (s.data.takeWhile (fun c => c ≠ apos))

/-- Python `s.strip()`. -/
def pyStrip (s : String) : String :=
  String.mk (((s.data.dropWhile Char.isWhitespace).reverse.dropWhile
    Char.isWhitespace).reverse)

/-- Fuel-driven core of Python `s.replace(pat, rep)` (all non-overlapping
occurrences, left to right); the fuel is the length of the subject, which
bounds the number of steps. -/
def pyReplaceAux (pat rep : List Char) : Nat → List Char → List Char
  | 0, s => s
  | _ + 1, [] => []
  | fuel + 1, c :: t =>
    if pat ≠ [] ∧ startsWithL pat (c :: t) then
      rep ++ pyReplaceAux pat rep fuel ((c :: t).drop pat.length)
    else c :: pyReplaceAux pat rep fuel t

/-- Python `s.replace(pat, rep)`. -/
def pyReplace (s pat rep : String) : String :=
  String.mk (pyReplaceAux pat.data rep.data s.data.length s.data)

/-- The per-query rewrite loop body of `_enforce_gender`. -/
def fixQuery (g targetPref otherTok : String) (q : String) : String :=
  let text := pyStrip q
  let lower := pyLower text
  if pyIn (splitApos targetPref) lower || pyIn g lower then text
  else if pyIn otherTok lower then pyReplace lower otherTok targetPref
  else targetPref ++ " " ++ text

/-- Embeds `KnowledgePlannerAgent._enforce_gender`. -/
def enforceGender (plan : Plan) (gender : Option String) : Plan :=
  if ¬ optStrTruthy gender then plan
  else
    let g := pyLower (gender.getD "")
    if g ≠ "men" ∧ g ≠ "women" then plan
    else
      let targetPref := if g = "men" then mensTok else womensTok
      let otherTok := if g = "men" then "women" else "men"
      { plan with productQueries :=
          plan.productQueries.map (fixQuery g targetPref otherTok) }

/-! ### Claim C5 -/

/-- The planner output exhibiting the C5 code bug. -/
def planWomenDresses : Plan :=
  { weatherSearchQuery := none, webQueries := [],
    productQueries := ["women dresses"] }

/-- C5, failing input: with gender `men` the sub-query `"women dresses"` is
kept verbatim — because `"men"` is a substring of `"women"`, the
"already matches target gender" check fires — so the dispatched sub-query
retains the opposite-gender token, contradicting the stated policy (and
the code's own `# If it already matches target gender, keep` comment). -/
theorem c5_enforce_gender_bug :
    enforceGender planWomenDresses (some "men") = planWomenDresses ∧
    pyIn "women" (pyLower "women dresses") = true ∧
    pyIn "men" (pyLower "women dresses") = true :=
  ⟨by decide, by decide, by decide⟩

/-! ## Orchestrator graph (`src/backend/langgraph/graph.py`)

`SortmeGraph.run_once` is embedded as a state-transition function producing
both the final state and an event trace.  LLM- and network-backed nodes
(parser, disambiguator, clarifier, planner, retrievers, validators,
stylist, UI) are oracle parameters in `NodeFns`: their state updates are
arbitrary, which only strengthens the universally quantified theorems.
The pure helpers (`_normalize_gender`, `_extract_gender_from_message`,
`_persist_gender`, `_ensure_gender`), the weather / web-fashion node state
updates, the merge node and the history bookkeeping are embedded from the
source.  The trace records, with their pre-states, the retrieval calls,
the web gate decision, the merge stage, and the gender prompt (mirroring
the code's `log_event` calls and gate logging). -/

/-- A conversation history entry. -/
structure Chat where
  role : String
  content : String
deriving DecidableEq

/-- A user profile record. -/
structure Profile where
  name : Option String
  gender : Option String
deriving DecidableEq

/-- The parsed fashion query: the keys `run_once` reads. -/
structure FQuery where
  queryType : Option String
  intent : Option String
  gender : Option String
  destination : Option String
  needsClarification : Bool
deriving DecidableEq

/-- The empty fashion-query dict (`state.fashion_query or {}`). -/
def defaultFQ : FQuery :=
  { queryType := none, intent := none, gender := none, destination := none,
    needsClarification := false }

/-- Web-mined dressing rules (`state.fashion_knowledge`). -/
structure FKnow where
  destination : Option String
  rules : List String
deriving DecidableEq

/-- A frontend event; only its `type` key is read by the orchestrator. -/
structure UIEvent where
  evType : Option String
deriving DecidableEq

/-- The orchestrator state: the `SortmeState` fields `run_once` and the
embedded nodes touch. -/
structure GState where
  userMessage : String
  conversationHistory : List Chat
  userProfile : Option Profile
  fashionQuery : Option FQuery
  broadIntent : Option FQuery
  plannerPlan : Option Plan
  weatherContext : Option String
  trendsContext : Option String
  fashionKnowledge : Option FKnow
  mode : Option String
  pendingGenderPrompt : Bool
  profileLoaded : Bool
  intentConfidence : Option ℚ
  recentGender : Option String
  clarificationQuestion : Option String
  clarificationOptions : List (String × String)
  clarificationChoice : Option String
  chosenDisambiguation : Option String
  uiEvent : Option UIEvent
  qdrantValid : List MItem
  webValid : List MItem
  finalProducts : List MItem
  stylistResponse : Option String
deriving DecidableEq

/-- Trace tags for the instrumented events of one turn. -/
inductive Tag where
  | genderPrompt
  | catalogRetrieve
  | multiQueryRetrieve
  | webGate
  | webRetrieve
  | webVisionValidate
  | mergeStage
deriving DecidableEq

/-- The oracle-backed nodes and external services of the graph. -/
structure NodeFns where
  hasProfileService : Bool
  fetchedProfile : Except Unit Profile
  trendsText : String
  parse : GState → GState
  disambiguate : GState → GState
  clarifier : GState → GState
  knowledgePlanner : GState → GState
  weatherOracle : String → Option String → String
  webSearchRules : String → List String
  multiQueryRetrieve : GState → GState
  outfitBuilder : GState → GState
  catalogRetrieve : GState → GState
  visionValidate : GState → GState
  webRetrieve : GState → GState
  webVisionValidate : GState → GState
  stylist : GState → GState
  ui : GState → GState
  blockedResponse : String
  userInfoResponse : GState → String
  extractedProfile : Except Unit Profile

/-- The configuration lookup `getattr(Config, "MIN_VALID_FOR_WEB", 0)`;
the repository's `Config` does not define the attribute, so the running
system always gets the default `0`. -/
structure ConfigM where
  minValidForWeb : Nat

/-- The repository default for `MIN_VALID_FOR_WEB` (attribute absent from
`Config`, so `getattr` yields `0`). -/
def repoConfig : ConfigM := { minValidForWeb := 0 }

/-- Embeds `SortmeGraph._normalize_gender` (the lowered value is written out in
each branch). -/
def normalizeGender (gender : Option String) : Option String :=
  if ¬ optStrTruthy gender then none
  else if pyIn "women" (pyLower (gender.getD "")) ||
      pyIn "female" (pyLower (gender.getD "")) ||
      pyIn "lady" (pyLower (gender.getD "")) then some "women"
  else if pyIn "men" (pyLower (gender.getD "")) ||
      pyIn "male" (pyLower (gender.getD "")) ||
      pyIn "guy" (pyLower (gender.getD "")) then some "men"
  else if pyIn "unisex" (pyLower (gender.getD "")) ||
      pyIn "both" (pyLower (gender.getD "")) then some "unisex"
  else none

/-- Embeds `SortmeGraph._extract_gender_from_message`. -/
def extractGenderFromMessage (message : String) : Option String :=
  if pyLower message = "" then none
  else if pyIn "men" (pyLower message) || pyIn "male" (pyLower message) ||
      pyIn "menswear" (pyLower message) || pyIn "for him" (pyLower message) then some "men"
  else if pyIn "women" (pyLower message) || pyIn "female" (pyLower message) ||
      pyIn "womenswear" (pyLower message) || pyIn "for her" (pyLower message) ||
      pyIn "lady" (pyLower message) then some "women"
  else if pyIn "unisex" (pyLower message) || pyIn "both" (pyLower message) ||
      pyIn "any gender" (pyLower message) then some "unisex"
  else none

/-- Embeds `SortmeGraph._persist_gender` (the profile-store write is external and
does not change the turn state beyond the profile dict). -/
def persistGender (s : GState) (gender : Option String) : GState :=
  if ¬ optStrTruthy gender then s
  else
    match normalizeGender gender with
    | none => s
    | some gn =>
      { s with
        fashionQuery := some { s.fashionQuery.getD defaultFQ with gender := some gn },
        userProfile := some { s.userProfile.getD ⟨none, none⟩ with gender := some gn },
        pendingGenderPrompt := false, profileLoaded := true,
        recentGender := some gn }

/-- The gender resolution order of `_ensure_gender`: message, then parsed
query, then stored profile (`or`-chain over falsy values). -/
def resolveGender (s : GState) : Option String :=
  (extractGenderFromMessage s.userMessage).orElse (fun _ =>
    (normalizeGender ((s.fashionQuery.getD defaultFQ).gender)).orElse (fun _ =>
      normalizeGender (match s.userProfile with | none => none | some p => p.gender)))

/-- The state written by the no-gender branch of `_ensure_gender` before
`ui_node` renders the prompt. -/
def genderPromptState (s : GState) : GState :=
  { s with
    pendingGenderPrompt := true, mode := some "gender_prompt",
    clarificationQuestion := some "Who am I styling today?",
    clarificationOptions :=
      [("Menswear", "men"), ("Womenswear", "women"), ("Show both", "unisex")],
    stylistResponse :=
      some "Before I pick products, are you shopping menswear, womenswear, or both?",
    uiEvent := none }

/-- Embeds `SortmeGraph._ensure_gender`: resolve a gender from the message, the
query or the profile and persist it, or set the pending-gender prompt and
render it (the returned `Bool` is the `proceed` flag; the trace records the
`gender_prompt` log event with its pre-`ui_node` state). -/
def ensureGender (N : NodeFns) (s : GState) : GState × Bool × List (Tag × GState) :=
  match resolveGender s with
  | some g => (persistGender s (some g), true, [])
  | none =>
    (N.ui (genderPromptState s), false, [(Tag.genderPrompt, genderPromptState s)])

/-- The body of `WeatherNode.__call__` once a plan is present: skip on a
falsy `weather_search_query`, else write `weather_context`. -/
def weatherApply (N : NodeFns) (s : GState) : Option String → GState
  | none => s
  | some q =>
    if q = "" then s
    else { s with
      weatherContext :=
        some (N.weatherOracle q ((s.fashionQuery.getD defaultFQ).destination)) }

/-- Embeds `WeatherNode.__call__`: only writes `weather_context`. -/
def weatherNode (N : NodeFns) (s : GState) : GState :=
  match s.plannerPlan with
  | none => s
  | some plan => weatherApply N s plan.weatherSearchQuery

/-- Embeds `WebFashionNode._dedupe`: first-seen-wins on truthy rule strings. -/
def dedupeStr (seen : List String) : List String → List String
  | [] => []
  | r :: t => if r = "" ∨ r ∈ seen then dedupeStr seen t
      else r :: dedupeStr (r :: seen) t

/-- The body of `WebFashionNode.__call__` once a plan is present. -/
def webFashionApply (N : NodeFns) (s : GState) (plan : Plan) : GState :=
  if plan.webQueries.isEmpty then s
  else { s with
    fashionKnowledge := some
      { destination := (s.fashionQuery.getD defaultFQ).destination,
        rules := dedupeStr [] (plan.webQueries.flatMap N.webSearchRules) } }

/-- Embeds `WebFashionNode.__call__`: only writes `fashion_knowledge`. -/
def webFashionNode (N : NodeFns) (s : GState) : GState :=
  match s.plannerPlan with
  | none => s
  | some plan => webFashionApply N s plan

/-- Embeds `MergeNode.__call__` lifted to the orchestrator state. -/
def mergeNodeG (s : GState) : GState :=
  { s with finalProducts := mergeNode s.qdrantValid s.webValid }

/-- Appending the assistant reply when `stylist_response` is truthy. -/
def appendAssistant (s : GState) : GState :=
  if optStrTruthy s.stylistResponse then
    { s with
      conversationHistory :=
        s.conversationHistory ++ [⟨"assistant", s.stylistResponse.getD ""⟩] }
  else s

/-- Embeds `state.conversation_history = state.conversation_history[-10:]` guarded
by `len > 10`. -/
def trimHistory (s : GState) : GState :=
  if 10 < s.conversationHistory.length then
    { s with
      conversationHistory :=
        s.conversationHistory.drop (s.conversationHistory.length - 10) }
  else s

/-- The conditional web-source block of the specific path: web retrieval
and web validation run iff the valid-catalog count is strictly below the
configured minimum. -/
def webGatePart (N : NodeFns) (cfg : ConfigM) (s5 : GState) : GState × List (Tag × GState) :=
  if s5.qdrantValid.length < cfg.minValidForWeb then
    (N.webVisionValidate (N.webRetrieve s5),
      [(Tag.webRetrieve, s5), (Tag.webVisionValidate, N.webRetrieve s5)])
  else (s5, [])

/-- The specific path after a successful gender gate: catalog retrieve,
vision validate, the web gate, merge, stylist, UI, history append and
trim. -/
def specificTail (N : NodeFns) (cfg : ConfigM) (s3 : GState) : GState × List (Tag × GState) :=
  (trimHistory (appendAssistant (N.ui (N.stylist
      { mergeNodeG (webGatePart N cfg (N.visionValidate (N.catalogRetrieve s3))).1 with
        mode := some "product" }))),
   (Tag.catalogRetrieve, s3) ::
    (Tag.webGate, N.visionValidate (N.catalogRetrieve s3)) ::
    (webGatePart N cfg (N.visionValidate (N.catalogRetrieve s3))).2 ++
    [(Tag.mergeStage, (webGatePart N cfg (N.visionValidate (N.catalogRetrieve s3))).1)])

/-- Specific path from the gender gate on. -/
def specificRest (N : NodeFns) (cfg : ConfigM) (s : GState) : GState × List (Tag × GState) :=
  if (ensureGender N s).2.1 then specificTail N cfg (ensureGender N s).1
  else ((ensureGender N s).1, (ensureGender N s).2.2)

/-- The pending-disambiguation early return guard. -/
def disambigPending (s : GState) : Bool :=
  match s.uiEvent with
  | none => false
  | some ev => ev.evType == some "disambiguation" && !(optStrTruthy s.chosenDisambiguation)

/-- The specific fashion-query path (`if fq:` branch of `run_once`);
`fq0` is the query dict captured right after parsing. -/
def specificPath (N : NodeFns) (cfg : ConfigM) (fq0 : FQuery) (sP : GState) :
    GState × List (Tag × GState) :=
  if disambigPending (N.disambiguate sP) then (N.disambiguate sP, [])
  else if fq0.needsClarification then
    if (N.clarifier (N.disambiguate sP)).clarificationOptions ≠ [] ∧
        ¬ optStrTruthy (N.clarifier (N.disambiguate sP)).clarificationChoice then
      (N.ui (N.stylist (N.clarifier (N.disambiguate sP))), [])
    else specificRest N cfg (N.clarifier (N.disambiguate sP))
  else specificRest N cfg (N.disambiguate sP)

/-- Embeds the destination check of `run_once` on the broad path: weather and
web-fashion mining run only when a destination was resolved. -/
def destinationStep (N : NodeFns) (s : GState) : GState :=
  if optStrTruthy ((s.fashionQuery.getD defaultFQ).destination) then
    webFashionNode N (weatherNode N s)
  else s

/-- The broad-intent path. -/
def broadPath (N : NodeFns) (sP : GState) : GState × List (Tag × GState) :=
  if (ensureGender N (N.knowledgePlanner sP)).2.1 then
    (N.ui (N.stylist (N.outfitBuilder (N.multiQueryRetrieve
      (destinationStep N (ensureGender N (N.knowledgePlanner sP)).1)))),
     [(Tag.multiQueryRetrieve,
        destinationStep N (ensureGender N (N.knowledgePlanner sP)).1)])
  else ((ensureGender N (N.knowledgePlanner sP)).1,
        (ensureGender N (N.knowledgePlanner sP)).2.2)

/-- The `user_info` intent branch: the profile write and the randomized
acknowledgment strings are external; the branch always exits through
`ui_node` with some stylist response and performs no retrieval. -/
def userInfoBranch (N : NodeFns) (sP : GState) : GState :=
  match N.extractedProfile with
  | Except.ok p =>
    N.ui { sP with
      userProfile := some p,
      stylistResponse := some (N.userInfoResponse { sP with userProfile := some p }) }
  | Except.error _ =>
    N.ui { sP with stylistResponse := some (N.userInfoResponse sP) }

/-- Low-intent-confidence guard (`is not None and < 0.45`). -/
def lowConf (s : GState) : Bool :=
  match s.intentConfidence with
  | none => false
  | some c => c < 45/100

/-- The dispatch over the parsed intent, from `parse_node` on. -/
def mainDispatch (N : NodeFns) (cfg : ConfigM) (s : GState) : GState × List (Tag × GState) :=
  if lowConf (N.parse s) then
    (N.ui (N.stylist { N.parse s with mode := some "nudge" }), [])
  else if ((N.parse s).fashionQuery.getD defaultFQ).intent = some "blocked" then
    (N.ui { N.parse s with stylistResponse := some N.blockedResponse }, [])
  else if ((N.parse s).fashionQuery.getD defaultFQ).intent = some "out_of_scope" then
    (N.ui (N.stylist { N.parse s with mode := some "nudge" }), [])
  else if ((N.parse s).fashionQuery.getD defaultFQ).intent = some "acknowledgment" then
    (N.ui (N.stylist { N.parse s with mode := some "nudge" }), [])
  else if ((N.parse s).fashionQuery.getD defaultFQ).intent = some "user_info" then
    (userInfoBranch N (N.parse s), [])
  else if ((N.parse s).fashionQuery.getD defaultFQ).queryType = some "chitchat" ∧
      ((N.parse s).fashionQuery.getD defaultFQ).intent = some "greeting" then
    (N.ui (N.stylist { N.parse s with mode := some "greeting" }), [])
  else if ((N.parse s).fashionQuery.getD defaultFQ).queryType = some "capabilities" then
    (N.ui (N.stylist { N.parse s with mode := some "capabilities_overview" }), [])
  else if ((N.parse s).fashionQuery.getD defaultFQ).queryType = some "trending" then
    (N.ui (N.stylist { N.parse s with mode := some "trending" }), [])
  else if ((N.parse s).fashionQuery.getD defaultFQ).queryType = some "broad" then
    broadPath N (N.parse s)
  else if (N.parse s).fashionQuery.isSome then
    specificPath N cfg ((N.parse s).fashionQuery.getD defaultFQ) (N.parse s)
  else
    (appendAssistant { N.parse s with
      stylistResponse :=
        some "Tell me what you're looking for in fashion and I'll find options for you." }, [])

/-- The once-per-session profile load at the top of `run_once`. -/
def profileLoadStep (N : NodeFns) (s : GState) : GState :=
  if N.hasProfileService ∧ ¬ s.profileLoaded then
    match N.fetchedProfile with
    | Except.ok p =>
      { s with
        userProfile := some p,
        recentGender := if optStrTruthy p.gender then p.gender else s.recentGender,
        profileLoaded := true }
    | Except.error _ => s
  else s

/-- The re-ask state of the pending-gender branch. -/
def reAskState (s : GState) : GState :=
  { s with
    mode := some "gender_prompt",
    stylistResponse := some "Just need to know: menswear, womenswear, or both?",
    clarificationQuestion := some "Shopping for menswear or womenswear?",
    clarificationOptions :=
      [("Menswear", "men"), ("Womenswear", "women"), ("Show both", "unisex")] }

/-- Embeds `run_once` from the point where the user message has been appended: the pending-gender
resolution followed by the dispatch. -/
def afterAppend (N : NodeFns) (cfg : ConfigM) (sC : GState) : GState × List (Tag × GState) :=
  if sC.pendingGenderPrompt then
    match extractGenderFromMessage sC.userMessage with
    | some g => mainDispatch N cfg { persistGender sC (some g) with profileLoaded := true }
    | none => (N.ui (reAskState sC), [])
  else mainDispatch N cfg sC

/-- Embeds `SortmeGraph.run_once`: profile load, trends, first-interaction
greeting, user-message append, pending-gender resolution, then the intent
dispatch.  Returns the final state and the event trace of the turn. -/
def runOnce (N : NodeFns) (cfg : ConfigM) (s0 : GState) : GState × List (Tag × GState) :=
  if (profileLoadStep N s0).conversationHistory.length = 0 ∧
      pyBlank (profileLoadStep N s0).userMessage then
    (N.ui (N.stylist { profileLoadStep N s0 with
      trendsContext := some N.trendsText, mode := some "greeting" }), [])
  else
    afterAppend N cfg
      { profileLoadStep N s0 with
        trendsContext := some N.trendsText,
        conversationHistory := (profileLoadStep N s0).conversationHistory ++
          [⟨"user", (profileLoadStep N s0).userMessage⟩] }

/-! ### Graph lemmas -/

/-- A state has a resolved gender on the effective query. -/
def genderSet (s : GState) : Prop :=
  ∃ fq, s.fashionQuery = some fq ∧
    (fq.gender = some "men" ∨ fq.gender = some "women" ∨ fq.gender = some "unisex")

theorem normalizeGender_mem {x : Option String} {g : String}
    (h : normalizeGender x = some g) :
    g = "men" ∨ g = "women" ∨ g = "unisex" := by
  unfold normalizeGender at h
  split at h
  · exact absurd h (by simp)
  · split at h
    · injection h with h; exact Or.inr (Or.inl h.symm)
    · split at h
      · injection h with h; exact Or.inl h.symm
      · split at h
        · injection h with h; exact Or.inr (Or.inr h.symm)
        · exact absurd h (by simp)

theorem extractGender_mem {m : String} {g : String}
    (h : extractGenderFromMessage m = some g) :
    g = "men" ∨ g = "women" ∨ g = "unisex" := by
  unfold extractGenderFromMessage at h
  split at h
  · exact absurd h (by simp)
  · split at h
    · injection h with h; exact Or.inl h.symm
    · split at h
      · injection h with h; exact Or.inr (Or.inl h.symm)
      · split at h
        · injection h with h; exact Or.inr (Or.inr h.symm)
        · exact absurd h (by simp)

theorem resolveGender_mem {s : GState} {g : String}
    (h : resolveGender s = some g) :
    g = "men" ∨ g = "women" ∨ g = "unisex" := by
  unfold resolveGender at h
  rcases he : extractGenderFromMessage s.userMessage with - | g1
  · rw [he] at h
    simp only [Option.orElse] at h
    rcases hq : normalizeGender ((s.fashionQuery.getD defaultFQ).gender) with - | g2
    · rw [hq] at h
      simp only [Option.orElse] at h
      exact normalizeGender_mem h
    · rw [hq] at h
      simp only [Option.orElse] at h
      injection h with h
      exact h ▸ normalizeGender_mem hq
  · rw [he] at h
    simp only [Option.orElse] at h
    injection h with h
    exact h ▸ extractGender_mem he

theorem persistGender_genderSet (s : GState) {g : String}
    (h : g = "men" ∨ g = "women" ∨ g = "unisex") :
    genderSet (persistGender s (some g)) := by
  rcases h with rfl | rfl | rfl
  · unfold persistGender
    rw [if_neg (by decide), show normalizeGender (some "men") = some "men" from by decide]
    exact ⟨_, rfl, Or.inl rfl⟩
  · unfold persistGender
    rw [if_neg (by decide),
      show normalizeGender (some "women") = some "women" from by decide]
    exact ⟨_, rfl, Or.inr (Or.inl rfl)⟩
  · unfold persistGender
    rw [if_neg (by decide),
      show normalizeGender (some "unisex") = some "unisex" from by decide]
    exact ⟨_, rfl, Or.inr (Or.inr rfl)⟩

theorem ensureGender_true {N : NodeFns} {s : GState}
    (h : (ensureGender N s).2.1 = true) :
    genderSet (ensureGender N s).1 ∧ (ensureGender N s).2.2 = [] := by
  unfold ensureGender at *
  rcases hr : resolveGender s with - | g
  · rw [hr] at h; exact absurd h (by simp)
  · exact ⟨persistGender_genderSet s (resolveGender_mem hr), rfl⟩

theorem ensureGender_false {N : NodeFns} {s : GState}
    (h : ¬ (ensureGender N s).2.1 = true) :
    (ensureGender N s).2.2 = [(Tag.genderPrompt, genderPromptState s)] ∧
      (genderPromptState s).pendingGenderPrompt = true := by
  unfold ensureGender at *
  rcases hr : resolveGender s with - | g
  · exact ⟨rfl, rfl⟩
  · rw [hr] at h; exact absurd rfl h

theorem weatherApply_fq (N : NodeFns) (s : GState) (o : Option String) :
    (weatherApply N s o).fashionQuery = s.fashionQuery := by
  rcases o with - | q
  · rfl
  · simp only [weatherApply]
    by_cases h : q = ""
    · rw [if_pos h]
    · rw [if_neg h]

theorem weatherNode_fq (N : NodeFns) (s : GState) :
    (weatherNode N s).fashionQuery = s.fashionQuery := by
  unfold weatherNode
  rcases hp : s.plannerPlan with - | plan
  · rfl
  · exact weatherApply_fq N s plan.weatherSearchQuery

theorem webFashionApply_fq (N : NodeFns) (s : GState) (plan : Plan) :
    (webFashionApply N s plan).fashionQuery = s.fashionQuery := by
  unfold webFashionApply
  by_cases h : plan.webQueries.isEmpty
  · rw [if_pos h]
  · rw [if_neg h]

theorem webFashionNode_fq (N : NodeFns) (s : GState) :
    (webFashionNode N s).fashionQuery = s.fashionQuery := by
  unfold webFashionNode
  rcases hp : s.plannerPlan with - | plan
  · rfl
  · exact webFashionApply_fq N s plan

theorem destinationStep_genderSet {N : NodeFns} {s : GState}
    (h : genderSet s) : genderSet (destinationStep N s) := by
  obtain ⟨fq, hfq, hg⟩ := h
  unfold destinationStep
  split
  · exact ⟨fq, by rw [webFashionNode_fq, weatherNode_fq, hfq], hg⟩
  · exact ⟨fq, hfq, hg⟩

theorem trimHistory_le (s : GState) :
    (trimHistory s).conversationHistory.length ≤ 10 := by
  unfold trimHistory
  by_cases h : 10 < s.conversationHistory.length
  · rw [if_pos h]
    simp only [List.length_drop]
    omega
  · rw [if_neg h]
    omega

/-- The four possible outcomes of one turn, as far as the instrumented
events are concerned: no event; a gender prompt halting the turn; a broad
multi-query retrieval with gender set; or the full specific tail with
gender set at the catalog-retrieval call. -/
def TraceCases (N : NodeFns) (cfg : ConfigM) (r : GState × List (Tag × GState)) : Prop :=
  r.2 = [] ∨
  (∃ sp, r.2 = [(Tag.genderPrompt, sp)] ∧ sp.pendingGenderPrompt = true) ∨
  (∃ s4, r.2 = [(Tag.multiQueryRetrieve, s4)] ∧ genderSet s4) ∨
  (∃ s3, genderSet s3 ∧ r = specificTail N cfg s3)

theorem specificRest_cases (N : NodeFns) (cfg : ConfigM) (s : GState) :
    TraceCases N cfg (specificRest N cfg s) := by
  unfold specificRest
  by_cases h : (ensureGender N s).2.1 = true
  · rw [if_pos h]
    exact Or.inr (Or.inr (Or.inr ⟨(ensureGender N s).1, (ensureGender_true h).1, rfl⟩))
  · rw [if_neg h]
    obtain ⟨h1, h2⟩ := ensureGender_false h
    exact Or.inr (Or.inl ⟨genderPromptState s, by rw [h1], h2⟩)

theorem specificPath_cases (N : NodeFns) (cfg : ConfigM) (fq0 : FQuery) (sP : GState) :
    TraceCases N cfg (specificPath N cfg fq0 sP) := by
  unfold specificPath
  by_cases h1 : disambigPending (N.disambiguate sP) = true
  · rw [if_pos h1]
    exact Or.inl rfl
  · rw [if_neg h1]
    by_cases h2 : fq0.needsClarification = true
    · rw [if_pos h2]
      by_cases h3 : (N.clarifier (N.disambiguate sP)).clarificationOptions ≠ [] ∧
          ¬ optStrTruthy (N.clarifier (N.disambiguate sP)).clarificationChoice
      · rw [if_pos h3]
        exact Or.inl rfl
      · rw [if_neg h3]
        exact specificRest_cases N cfg _
    · rw [if_neg h2]
      exact specificRest_cases N cfg _

theorem broadPath_cases (N : NodeFns) (cfg : ConfigM) (sP : GState) :
    TraceCases N cfg (broadPath N sP) := by
  unfold broadPath
  by_cases h : (ensureGender N (N.knowledgePlanner sP)).2.1 = true
  · rw [if_pos h]
    exact Or.inr (Or.inr (Or.inl ⟨_, rfl, destinationStep_genderSet (ensureGender_true h).1⟩))
  · rw [if_neg h]
    obtain ⟨h1, h2⟩ := ensureGender_false h
    exact Or.inr (Or.inl ⟨genderPromptState _, by rw [h1], h2⟩)

theorem mainDispatch_cases (N : NodeFns) (cfg : ConfigM) (s : GState) :
    TraceCases N cfg (mainDispatch N cfg s) := by
  unfold mainDispatch
  by_cases h1 : lowConf (N.parse s) = true
  · rw [if_pos h1]; exact Or.inl rfl
  rw [if_neg h1]
  by_cases h2 : ((N.parse s).fashionQuery.getD defaultFQ).intent = some "blocked"
  · rw [if_pos h2]; exact Or.inl rfl
  rw [if_neg h2]
  by_cases h3 : ((N.parse s).fashionQuery.getD defaultFQ).intent = some "out_of_scope"
  · rw [if_pos h3]; exact Or.inl rfl
  rw [if_neg h3]
  by_cases h4 : ((N.parse s).fashionQuery.getD defaultFQ).intent = some "acknowledgment"
  · rw [if_pos h4]; exact Or.inl rfl
  rw [if_neg h4]
  by_cases h5 : ((N.parse s).fashionQuery.getD defaultFQ).intent = some "user_info"
  · rw [if_pos h5]; exact Or.inl rfl
  rw [if_neg h5]
  by_cases h6 : ((N.parse s).fashionQuery.getD defaultFQ).queryType = some "chitchat" ∧
      ((N.parse s).fashionQuery.getD defaultFQ).intent = some "greeting"
  · rw [if_pos h6]; exact Or.inl rfl
  rw [if_neg h6]
  by_cases h7 : ((N.parse s).fashionQuery.getD defaultFQ).queryType = some "capabilities"
  · rw [if_pos h7]; exact Or.inl rfl
  rw [if_neg h7]
  by_cases h8 : ((N.parse s).fashionQuery.getD defaultFQ).queryType = some "trending"
  · rw [if_pos h8]; exact Or.inl rfl
  rw [if_neg h8]
  by_cases h9 : ((N.parse s).fashionQuery.getD defaultFQ).queryType = some "broad"
  · rw [if_pos h9]; exact broadPath_cases N cfg (N.parse s)
  rw [if_neg h9]
  by_cases h10 : (N.parse s).fashionQuery.isSome = true
  · rw [if_pos h10]
    exact specificPath_cases N cfg ((N.parse s).fashionQuery.getD defaultFQ) (N.parse s)
  · rw [if_neg h10]
    exact Or.inl rfl

theorem afterAppend_cases (N : NodeFns) (cfg : ConfigM) (sC : GState) :
    TraceCases N cfg (afterAppend N cfg sC) := by
  unfold afterAppend
  by_cases h : sC.pendingGenderPrompt = true
  · rw [if_pos h]
    rcases he : extractGenderFromMessage sC.userMessage with - | g
    · exact Or.inl rfl
    · exact mainDispatch_cases N cfg _
  · rw [if_neg h]
    exact mainDispatch_cases N cfg sC

theorem runOnce_cases (N : NodeFns) (cfg : ConfigM) (s0 : GState) :
    TraceCases N cfg (runOnce N cfg s0) := by
  unfold runOnce
  split
  · exact Or.inl rfl
  · exact afterAppend_cases N cfg _

/-! ### Claims C2, C8 and C10 -/

/-- C2: the gender gate invariant.  Catalog retrieval (specific path) and
multi-query retrieval (broad path) are never invoked without a resolved
gender on the effective query, and whenever the gender prompt fires the
pending flag is set and no retrieval of any kind happens in that turn. -/
theorem c2_gender_gate (N : NodeFns) (cfg : ConfigM) (s0 : GState) :
    (∀ pre, (Tag.catalogRetrieve, pre) ∈ (runOnce N cfg s0).2 → genderSet pre) ∧
    (∀ pre, (Tag.multiQueryRetrieve, pre) ∈ (runOnce N cfg s0).2 → genderSet pre) ∧
    (∀ pre, (Tag.genderPrompt, pre) ∈ (runOnce N cfg s0).2 →
      pre.pendingGenderPrompt = true ∧
      (∀ q, (Tag.catalogRetrieve, q) ∉ (runOnce N cfg s0).2) ∧
      (∀ q, (Tag.multiQueryRetrieve, q) ∉ (runOnce N cfg s0).2) ∧
      (∀ q, (Tag.webRetrieve, q) ∉ (runOnce N cfg s0).2)) := by
  rcases runOnce_cases N cfg s0 with h | ⟨sp, h, hsp⟩ | ⟨s4, h, hg⟩ | ⟨s3, hg, h⟩
  · refine ⟨?_, ?_, ?_⟩ <;> intro pre hpre <;> rw [h] at hpre <;> simp at hpre
  · refine ⟨?_, ?_, ?_⟩ <;> intro pre hpre <;> rw [h] at hpre <;> simp at hpre
    obtain ⟨rfl, -⟩ := hpre  -- hpre gives pre = sp
    exact ⟨hsp, fun q hq => by rw [h] at hq; simp at hq,
      fun q hq => by rw [h] at hq; simp at hq,
      fun q hq => by rw [h] at hq; simp at hq⟩
  · refine ⟨?_, ?_, ?_⟩ <;> intro pre hpre <;> rw [h] at hpre <;> simp at hpre
    obtain ⟨rfl, -⟩ := hpre
    exact hg
  · have ht : (runOnce N cfg s0).2 = (specificTail N cfg s3).2 := by rw [h]
    simp only [specificTail] at ht
    by_cases hb : (N.visionValidate (N.catalogRetrieve s3)).qdrantValid.length <
        cfg.minValidForWeb
    · simp only [webGatePart, if_pos hb] at ht
      refine ⟨?_, ?_, ?_⟩ <;> intro pre hpre <;> rw [ht] at hpre <;> simp at hpre
      obtain ⟨rfl, -⟩ := hpre
      exact hg
    · simp only [webGatePart, if_neg hb] at ht
      refine ⟨?_, ?_, ?_⟩ <;> intro pre hpre <;> rw [ht] at hpre <;> simp at hpre
      obtain ⟨rfl, -⟩ := hpre
      exact hg

/-- C8: on every turn, web retrieval and web validation run if and only if
the valid-catalog count at the gate is strictly below the configured
minimum-valid threshold (`getattr(Config, "MIN_VALID_FOR_WEB", 0)`); at or
above the threshold the web source is skipped entirely. -/
theorem c8_web_gate (N : NodeFns) (cfg : ConfigM) (s0 : GState) :
    ((∃ pre, (Tag.webRetrieve, pre) ∈ (runOnce N cfg s0).2) ↔
      (∃ pre, (Tag.webGate, pre) ∈ (runOnce N cfg s0).2 ∧
        pre.qdrantValid.length < cfg.minValidForWeb)) ∧
    ((∃ pre, (Tag.webVisionValidate, pre) ∈ (runOnce N cfg s0).2) ↔
      (∃ pre, (Tag.webGate, pre) ∈ (runOnce N cfg s0).2 ∧
        pre.qdrantValid.length < cfg.minValidForWeb)) := by
  rcases runOnce_cases N cfg s0 with h | ⟨sp, h, hsp⟩ | ⟨s4, h, hg⟩ | ⟨s3, hg, h⟩
  · constructor <;> constructor
    · rintro ⟨pre, hpre⟩; rw [h] at hpre; simp at hpre
    · rintro ⟨pre, hpre, -⟩; rw [h] at hpre; simp at hpre
    · rintro ⟨pre, hpre⟩; rw [h] at hpre; simp at hpre
    · rintro ⟨pre, hpre, -⟩; rw [h] at hpre; simp at hpre
  · constructor <;> constructor
    · rintro ⟨pre, hpre⟩; rw [h] at hpre; simp at hpre
    · rintro ⟨pre, hpre, -⟩; rw [h] at hpre; simp at hpre
    · rintro ⟨pre, hpre⟩; rw [h] at hpre; simp at hpre
    · rintro ⟨pre, hpre, -⟩; rw [h] at hpre; simp at hpre
  · constructor <;> constructor
    · rintro ⟨pre, hpre⟩; rw [h] at hpre; simp at hpre
    · rintro ⟨pre, hpre, -⟩; rw [h] at hpre; simp at hpre
    · rintro ⟨pre, hpre⟩; rw [h] at hpre; simp at hpre
    · rintro ⟨pre, hpre, -⟩; rw [h] at hpre; simp at hpre
  · have ht : (runOnce N cfg s0).2 = (specificTail N cfg s3).2 := by rw [h]
    simp only [specificTail] at ht
    by_cases hb : (N.visionValidate (N.catalogRetrieve s3)).qdrantValid.length <
        cfg.minValidForWeb
    · simp only [webGatePart, if_pos hb] at ht
      constructor <;> constructor
      · intro _
        exact ⟨N.visionValidate (N.catalogRetrieve s3), by rw [ht]; simp, hb⟩
      · intro _
        exact ⟨N.visionValidate (N.catalogRetrieve s3), by rw [ht]; simp⟩
      · intro _
        exact ⟨N.visionValidate (N.catalogRetrieve s3), by rw [ht]; simp, hb⟩
      · intro _
        exact ⟨N.webRetrieve (N.visionValidate (N.catalogRetrieve s3)), by rw [ht]; simp⟩
    · simp only [webGatePart, if_neg hb] at ht
      constructor <;> constructor
      · rintro ⟨pre, hpre⟩; rw [ht] at hpre; simp at hpre
      · rintro ⟨pre, hpre, hc⟩
        rw [ht] at hpre
        simp at hpre
        obtain ⟨rfl, -⟩ := hpre
        exact absurd hc hb
      · rintro ⟨pre, hpre⟩; rw [ht] at hpre; simp at hpre
      · rintro ⟨pre, hpre, hc⟩
        rw [ht] at hpre
        simp at hpre
        obtain ⟨rfl, -⟩ := hpre
        exact absurd hc hb

/-- C10 (amended): the trailing-window bound on conversation history holds
after every turn that completes the specific-query pipeline (the merge
stage ran): only that branch trims the history to the last 10 entries. -/
theorem c10_history_trim (N : NodeFns) (cfg : ConfigM) (s0 : GState)
    (h : ∃ pre, (Tag.mergeStage, pre) ∈ (runOnce N cfg s0).2) :
    (runOnce N cfg s0).1.conversationHistory.length ≤ 10 := by
  rcases runOnce_cases N cfg s0 with h1 | ⟨sp, h1, -⟩ | ⟨s4, h1, -⟩ | ⟨s3, -, h1⟩
  · obtain ⟨pre, hpre⟩ := h; rw [h1] at hpre; simp at hpre
  · obtain ⟨pre, hpre⟩ := h; rw [h1] at hpre; simp at hpre
  · obtain ⟨pre, hpre⟩ := h; rw [h1] at hpre; simp at hpre
  · rw [h1]
    simp only [specificTail]
    exact trimHistory_le _

/-- All-identity node oracles for concrete runs. -/
def idNodes : NodeFns :=
  { hasProfileService := false, fetchedProfile := Except.error (), trendsText := "",
    parse := id, disambiguate := id, clarifier := id, knowledgePlanner := id,
    weatherOracle := fun _ _ => "", webSearchRules := fun _ => [],
    multiQueryRetrieve := id, outfitBuilder := id, catalogRetrieve := id,
    visionValidate := id, webRetrieve := id, webVisionValidate := id,
    stylist := id, ui := id, blockedResponse := "",
    userInfoResponse := fun _ => "", extractedProfile := Except.error () }

/-- An inert base state. -/
def baseState : GState :=
  { userMessage := "", conversationHistory := [], userProfile := none,
    fashionQuery := none, broadIntent := none, plannerPlan := none,
    weatherContext := none, trendsContext := none, fashionKnowledge := none,
    mode := none, pendingGenderPrompt := false, profileLoaded := false,
    intentConfidence := none, recentGender := none,
    clarificationQuestion := none, clarificationOptions := [],
    clarificationChoice := none, chosenDisambiguation := none, uiEvent := none,
    qdrantValid := [], webValid := [], finalProducts := [],
    stylistResponse := none }

/-- C10 counterexample input: a session already holding 10 history entries,
a pending gender prompt, and a reply (`"hello"`) carrying no gender
signal. -/
def sPending : GState :=
  { baseState with
    userMessage := "hello",
    conversationHistory := List.replicate 10 ⟨"user", "hi"⟩,
    pendingGenderPrompt := true }

/-- C10 counterexample: on the pending-gender re-ask branch the turn
appends the user message and returns without trimming, leaving 11 entries
in the conversation history — the 10-entry bound does not hold after every
completed turn. -/
theorem c10_history_counterexample :
    (runOnce idNodes repoConfig sPending).1.conversationHistory.length = 11 ∧
    10 < (runOnce idNodes repoConfig sPending).1.conversationHistory.length :=
  ⟨by decide, by decide⟩

/-- A parse oracle that classifies the message as a specific query. -/
def parseSpecific : GState → GState :=
  fun s => { s with fashionQuery := some defaultFQ }

/-- Node oracles driving a turn down the specific path. -/
def nSpec : NodeFns := { idNodes with parse := parseSpecific }

/-- Input for the specific-path run: the message carries a gender token. -/
def sSpec : GState :=
  { baseState with
    userMessage := "men shirts",
    conversationHistory := [⟨"user", "hi"⟩] }

/-- The pre-state of the catalog-retrieval call in the concrete run. -/
def c2wPre : GState :=
  ((runOnce nSpec repoConfig sSpec).2.headD (Tag.genderPrompt, sSpec)).2

/-- C2 witness: the gender-gate invariant applied to a concrete specific
turn whose trace contains a catalog-retrieval call. -/
theorem c2_gender_gate_witness :
    (Tag.catalogRetrieve, c2wPre) ∈ (runOnce nSpec repoConfig sSpec).2 ∧
    genderSet c2wPre :=
  ⟨by decide, (c2_gender_gate nSpec repoConfig sSpec).1 c2wPre (by decide)⟩

/-- A configuration with a positive minimum-valid threshold, to drive the
web gate. -/
def cfgFive : ConfigM := { minValidForWeb := 5 }

/-- The pre-state of the web gate in the concrete gated run. -/
def c8wPre : GState :=
  ((runOnce nSpec cfgFive sSpec).2.getD 1 (Tag.genderPrompt, sSpec)).2

/-- C8 witness: the gate equivalence applied to a concrete turn where the
valid-catalog count (0) is below the threshold (5), so web retrieval runs. -/
theorem c8_web_gate_witness :
    ∃ pre, (Tag.webRetrieve, pre) ∈ (runOnce nSpec cfgFive sSpec).2 :=
  (c8_web_gate nSpec cfgFive sSpec).1.mpr ⟨c8wPre, by decide, by decide⟩

/-- The pre-state of the merge stage in the concrete specific run. -/
def c10wPre : GState :=
  ((runOnce nSpec repoConfig sSpec).2.getLastD (Tag.genderPrompt, sSpec)).2

/-- C10 witness: the amended history bound applied to a concrete turn that
completes the specific pipeline. -/
theorem c10_history_trim_witness :
    (Tag.mergeStage, c10wPre) ∈ (runOnce nSpec repoConfig sSpec).2 ∧
    (runOnce nSpec repoConfig sSpec).1.conversationHistory.length ≤ 10 :=
  ⟨by decide, c10_history_trim nSpec repoConfig sSpec ⟨c10wPre, by decide⟩⟩

end Sortme
